import Mathlib

/-!
Verification development for the rex file manager's core:
the filesystem mutation engine (src/fs_ops.rs), the bounded undo log
(src/history.rs), the clipboard (src/clipboard.rs) and the cancellable
recursive search (src/searcher.rs).

The filesystem is shallowly embedded as a finite tree: a node is either a
file (with byte content modelled as a `String`) or a directory with an
ordered association list of named children.  Paths are lists of components.
Filesystem operations that can fail in the real code return `Option` or a
success flag, and an explicit `Env` injects the two failure sources the
code reacts to: `fs::rename` failing (typically cross-device, the trigger
for the copy-then-remove fallback of `move_rec`) and a recursive-copy step
failing (permissions, device full).
-/

namespace Rex

/-- A filesystem path, as its list of components (absolute, root = `[]`). -/
abbrev Path := List String

/-- `pfx p q` is true when the path `p` is an initial segment of `q`
(including `p = q`): the entry at `q` lives inside the subtree at `p`. -/
def pfx : Path → Path → Bool
  | [], _ => true
  | _ :: _, [] => false
  | a :: p, b :: q => a == b && pfx p q

/-- A filesystem node: a file with contents, or a directory with an ordered
list of named children (the order models `read_dir` order). -/
inductive Node where
  | file (content : String)
  | dir (children : List (String × Node))

/-- First child with the given name, if any. -/
def findChild (a : String) : List (String × Node) → Option Node
  | [] => none
  | (b, n) :: rest => if a == b then some n else findChild a rest

/-- Replace the first child named `a` (or append a new binding). -/
def setChild (a : String) (m : Node) : List (String × Node) → List (String × Node)
  | [] => [(a, m)]
  | (b, n) :: rest => if a == b then (a, m) :: rest else (b, n) :: setChild a m rest

/-- Remove the bindings named `a`.  A real directory holds at most one
entry per name, so this coincides with removing that entry. -/
def removeChild (a : String) : List (String × Node) → List (String × Node)
  | [] => []
  | (b, n) :: rest => if a == b then removeChild a rest else (b, n) :: removeChild a rest

/-- Resolve a path inside a node (the node at that path, if it exists). -/
def lookup : Node → Path → Option Node
  | n, [] => some n
  | .file _, _ :: _ => none
  | .dir cs, a :: p =>
    match findChild a cs with
    | some c => lookup c p
    | none => none

/-- Whether an entry exists at the path (models `Path::exists`). -/
def pathExists (fs : Node) (p : Path) : Bool := (lookup fs p).isSome

/-- Write a node at a path.  Fails (`none`) when an intermediate component is
missing or is a file; replaces whatever was previously bound at the path. -/
def insertAt : Node → Path → Node → Option Node
  | _, [], m => some m
  | .file _, _ :: _, _ => none
  | .dir cs, a :: p, m =>
    match p with
    | [] => some (.dir (setChild a m cs))
    | _ :: _ =>
      match findChild a cs with
      | some c => (insertAt c p m).map (fun c2 => .dir (setChild a c2 cs))
      | none => none

/-- Remove the entry at a path (models `remove_dir_all` / `remove_file`,
which both fail when the entry is missing). -/
def removeAt : Node → Path → Option Node
  | _, [] => none
  | .file _, _ :: _ => none
  | .dir cs, a :: p =>
    match p with
    | [] =>
      match findChild a cs with
      | some _ => some (.dir (removeChild a cs))
      | none => none
    | _ :: _ =>
      match findChild a cs with
      | some c => (removeAt c p).map (fun c2 => .dir (setChild a c2 cs))
      | none => none

/-- A fresh chain of empty directories along a path. -/
def mkDirs : Path → Node
  | [] => .dir []
  | a :: p => .dir [(a, mkDirs p)]

/-- Models `fs::create_dir_all`: creates every missing directory along the
path, succeeds if the full path already exists as a directory, fails when a
component exists as a file. -/
def createDirAll : Node → Path → Option Node
  | .file _, [] => none
  | .dir cs, [] => some (.dir cs)
  | .file _, _ :: _ => none
  | .dir cs, a :: p =>
    match findChild a cs with
    | some c => (createDirAll c p).map (fun c2 => .dir (setChild a c2 cs))
    | none => some (.dir (setChild a (mkDirs p) cs))

/-- Big-endian decimal digits, fuel-driven so the definition is structural;
`decDigits` always supplies sufficient fuel. -/
def decDigitsFuel : Nat → Nat → List Nat
  | 0, _ => []
  | f + 1, n => if n < 10 then [n] else decDigitsFuel f (n / 10) ++ [n % 10]

/-- The decimal digits of `n`, most significant first. -/
def decDigits (n : Nat) : List Nat := decDigitsFuel (n + 1) n

/-- The number a big-endian digit list denotes. -/
def valBE (l : List Nat) : Nat := l.foldl (fun a d => a * 10 + d) 0

/-- One decimal digit as a character. -/
def digitChar : Nat → Char
  | 0 => '0' | 1 => '1' | 2 => '2' | 3 => '3' | 4 => '4'
  | 5 => '5' | 6 => '6' | 7 => '7' | 8 => '8' | _ => '9'

/-- Decimal rendering of a natural number; models Rust `format!` of a
`usize` (the `{idx}` in `unique_in`). -/
def natToStr (n : Nat) : String := String.mk ((decDigits n).map digitChar)

/-- The `idx`-suffixed candidate name: models `format!("{} ({idx})", name)` —
the counter is appended to the whole name, extension included. -/
def candName (name : String) (i : Nat) : String :=
  name ++ " (" ++ natToStr i ++ ")"

/-- The names bound in the directory at `d` (empty if `d` is not a directory). -/
def childNames (fs : Node) (d : Path) : List String :=
  match lookup fs d with
  | some (.dir cs) => cs.map Prod.fst
  | _ => []

/-- The loop of `unique_in`, fuel-driven: starting at index `i`, return the
first index whose candidate name does not exist. -/
def findFree (fs : Node) (d : Path) (name : String) : Nat → Nat → Nat
  | 0, i => i
  | f + 1, i =>
    if pathExists fs (d ++ [candName name i]) then findFree fs d name f (i + 1) else i

/-- Models `unique_in(dir, name)`: `dir/name` if free, otherwise the first
`dir/"name (i)"` (for `i = 1, 2, …`) that does not exist.  The fuel
`|children| + 1` always suffices (`findFree_window`), so the fuel-driven
loop agrees with the unbounded source loop. -/
def unique_in (fs : Node) (d : Path) (name : String) : Path :=
  if pathExists fs (d ++ [name]) then
    d ++ [candName name (findFree fs d name ((childNames fs d).length + 1) 1)]
  else d ++ [name]

/-- The failure environment.  `renameFails src dst` injects an `fs::rename`
error (typically cross-device, the trigger for the fallback of `move_rec`);
`copyFaults p` injects an I/O failure (permissions, device full) while
copying the entry whose source path is `p`. -/
structure Env where
  renameFails : Path → Path → Bool
  copyFaults : Path → Bool

/-- The operation record `Op` of `fs_ops.rs` (field `from` is `src` here,
since `from` is a Lean keyword). -/
inductive Op where
  | rename (src dst : Path)
  | move (src dst : Path)
  | copy (dst : Path)
  | delete (trashed original : Path)
  | mkDir (path : Path)
  | touch (path : Path)
deriving DecidableEq

/-- The `fs::copy(from, to)` step for one file: fails when the destination
is a directory, otherwise writes the content at the destination
(overwriting an existing file). -/
def fsCopyFile (fs : Node) (dst : Path) (content : String) : Option Node :=
  match lookup fs dst with
  | some (.dir _) => none
  | _ => insertAt fs dst (.file content)

mutual
/-- `copy_rec` on one source entry, structural on a snapshot `n` of the
source subtree.  The Rust code re-reads the live filesystem at each level;
the snapshot agrees with those live reads whenever the destination does not
lie inside the source subtree, which is a hypothesis of every theorem using
this definition.  The returned flag is success; on failure the partially
copied state is returned as-is (the engine performs no rollback). -/
def copyNode (env : Env) (fs : Node) (n : Node) (src dst : Path) : Node × Bool :=
  if env.copyFaults src then (fs, false) else
  match n with
  | .file c =>
    match createDirAll fs dst.dropLast with
    | none => (fs, false)
    | some fs1 =>
      match fsCopyFile fs1 dst c with
      | none => (fs1, false)
      | some fs2 => (fs2, true)
  | .dir cs =>
    match createDirAll fs dst with
    | none => (fs, false)
    | some fs1 => copyChildren env fs1 cs src dst
/-- The child loop of `copy_rec`: copy each child in `read_dir` order,
stopping at the first failure. -/
def copyChildren (env : Env) (fs : Node) (cs : List (String × Node))
    (src dst : Path) : Node × Bool :=
  match cs with
  | [] => (fs, true)
  | (a, child) :: rest =>
    match copyNode env fs child (src ++ [a]) (dst ++ [a]) with
    | (fs1, false) => (fs1, false)
    | (fs1, true) => copyChildren env fs1 rest src dst
end

/-- `copy_rec(from, to)` of fs_ops.rs. -/
def copy_rec (env : Env) (fs : Node) (src dst : Path) : Node × Bool :=
  match lookup fs src with
  | none => (fs, false)
  | some n => copyNode env fs n src dst

/-- `fs::rename(src, dst)`, POSIX `rename(2)` semantics plus the injected
environment failure: succeeds atomically when the source exists, no failure
is injected, the paths are not nested one inside the other, and the
destination is absent (with an existing parent directory), a file being
replaced by a file, or an empty directory being replaced by a directory. -/
def renameFs (env : Env) (fs : Node) (src dst : Path) : Option Node :=
  if env.renameFails src dst then none
  else
    match lookup fs src with
    | none => none
    | some n =>
      if src = dst then some fs
      else if pfx src dst || pfx dst src then none
      else
        match lookup fs dst with
        | none => (removeAt fs src).bind (fun fs1 => insertAt fs1 dst n)
        | some (.file _) =>
          match n with
          | .file _ => (removeAt fs src).bind (fun fs1 => insertAt fs1 dst n)
          | .dir _ => none
        | some (.dir ds) =>
          match n, ds with
          | .dir _, [] => (removeAt fs src).bind (fun fs1 => insertAt fs1 dst n)
          | _, _ => none

/-- `move_rec(from, to)`: ensure the destination's parent exists, try the
atomic rename, and on rename failure fall back to recursive copy followed —
only after the copy fully succeeded — by recursive removal of the source. -/
def move_rec (env : Env) (fs : Node) (src dst : Path) : Node × Bool :=
  match createDirAll fs dst.dropLast with
  | none => (fs, false)
  | some fs1 =>
    match renameFs env fs1 src dst with
    | some fs2 => (fs2, true)
    | none =>
      match copy_rec env fs1 src dst with
      | (fs2, false) => (fs2, false)
      | (fs2, true) =>
        match removeAt fs2 src with
        | some fs3 => (fs3, true)
        | none => (fs2, false)

/-- `remove_rec(p)`: `remove_dir_all` / `remove_file`, failing when the
entry is missing. -/
def remove_rec (fs : Node) (p : Path) : Node × Bool :=
  match removeAt fs p with
  | some fs1 => (fs1, true)
  | none => (fs, false)

/-- `Path::file_name().unwrap_or_default()`. -/
def lastName (p : Path) : String := p.getLast?.getD ""

/-- `copy(from, to_dir)`: collision-free destination name, then recursive
copy; on success records `Copy{to}`. -/
def copy (env : Env) (fs : Node) (src toDir : Path) : Node × Option Op :=
  let dst := unique_in fs toDir (lastName src)
  match copy_rec env fs src dst with
  | (fs1, true) => (fs1, some (.copy dst))
  | (fs1, false) => (fs1, none)

/-- `mv(from, to_dir)`: collision-free destination, move with fallback; on
success records `Move{from, to}`. -/
def mv (env : Env) (fs : Node) (src toDir : Path) : Node × Option Op :=
  let dst := unique_in fs toDir (lastName src)
  match move_rec env fs src dst with
  | (fs1, true) => (fs1, some (.move src dst))
  | (fs1, false) => (fs1, none)

/-- `rename(from, new_name)`: destination is the source's parent joined
with the new name (`with_file_name`) — no collision resolution — then the
same move with fallback; on success records `Rename{from, to}`. -/
def rename (env : Env) (fs : Node) (src : Path) (newName : String) :
    Node × Option Op :=
  let dst := src.dropLast ++ [newName]
  match move_rec env fs src dst with
  | (fs1, true) => (fs1, some (.rename src dst))
  | (fs1, false) => (fs1, none)

/-- `mkdir(where, name)`: `create_dir_all` at `where/name`; on success
records `MkDir{path}` (also when the directory already existed). -/
def mkdir (fs : Node) (whereP : Path) (name : String) : Node × Option Op :=
  let dst := whereP ++ [name]
  match createDirAll fs dst with
  | some fs1 => (fs1, some (.mkDir dst))
  | none => (fs, none)

/-- `touch(where, name)`: ensure the parent exists, then open with
`create(true).write(true)` — creates a missing file, leaves an existing
file's content alone, fails on a directory; on success records
`Touch{path}`. -/
def touch (fs : Node) (whereP : Path) (name : String) : Node × Option Op :=
  let dst := whereP ++ [name]
  match createDirAll fs dst.dropLast with
  | none => (fs, none)
  | some fs1 =>
    match lookup fs1 dst with
    | some (.dir _) => (fs1, none)
    | some (.file _) => (fs1, some (.touch dst))
    | none =>
      match insertAt fs1 dst (.file "") with
      | some fs2 => (fs2, some (.touch dst))
      | none => (fs1, none)

/-- `delete_to_trash(p)`: ensure the trash directory (caller-supplied path)
exists, resolve a collision-free name inside it, move with fallback; on
success records `Delete{trashed, original}`. -/
def delete_to_trash (env : Env) (trash : Path) (fs : Node) (p : Path) :
    Node × Option Op :=
  match createDirAll fs trash with
  | none => (fs, none)
  | some fs1 =>
    let dst := unique_in fs1 trash (lastName p)
    match move_rec env fs1 p dst with
    | (fs2, true) => (fs2, some (.delete dst p))
    | (fs2, false) => (fs2, none)

/-- `undo(op)`: the structural inverse of a record. -/
def undo (env : Env) (fs : Node) (op : Op) : Node × Bool :=
  match op with
  | .copy dst => remove_rec fs dst
  | .move src dst => move_rec env fs dst src
  | .rename src dst => move_rec env fs dst src
  | .delete trashed original => move_rec env fs trashed original
  | .mkDir p => remove_rec fs p
  | .touch p => remove_rec fs p

/-- `OpsHistory` of history.rs: the `undo` deque (head = oldest entry =
`VecDeque` front) and the configured capacity. -/
structure OpsHistory where
  undo : List Op
  capacity : Nat
deriving DecidableEq

/-- `OpsHistory::new(cap)`. -/
def OpsHistory.new (cap : Nat) : OpsHistory := ⟨[], cap⟩

/-- The derived `Default`: empty deque, capacity `0`. -/
def OpsHistory.mkDefault : OpsHistory := ⟨[], 0⟩

/-- `push`: when `len == capacity`, `pop_front` (a no-op on an empty
deque), then `push_back`. -/
def OpsHistory.push (h : OpsHistory) (op : Op) : OpsHistory :=
  ⟨(if h.undo.length = h.capacity then h.undo.tail else h.undo) ++ [op],
   h.capacity⟩

/-- `pop_undo`: `pop_back` — the most recently pushed record. -/
def OpsHistory.pop_undo (h : OpsHistory) : Option Op × OpsHistory :=
  match h.undo.getLast? with
  | some op => (some op, ⟨h.undo.dropLast, h.capacity⟩)
  | none => (none, h)

/-- Push a list of records in order. -/
def OpsHistory.pushAll (h : OpsHistory) (ops : List Op) : OpsHistory :=
  ops.foldl OpsHistory.push h

/-- `Mode` of clipboard.rs. -/
inductive Mode where
  | copy
  | cut
deriving DecidableEq

/-- `Clipboard` of clipboard.rs. -/
structure Clipboard where
  items : List Path
  mode : Option Mode
  last_paste_targets : List (Path × Path)
deriving DecidableEq

/-- The derived `Default`. -/
def Clipboard.mkDefault : Clipboard := ⟨[], none, []⟩

/-- `clear`. -/
def Clipboard.clear (_c : Clipboard) : Clipboard := ⟨[], none, []⟩

/-- `set(items, mode)`: replaces items, sets the mode unconditionally. -/
def Clipboard.set (_c : Clipboard) (items : List Path) (mode : Mode) :
    Clipboard := ⟨items, some mode, []⟩

/-- `has_items`. -/
def Clipboard.has_items (c : Clipboard) : Bool :=
  !c.items.isEmpty && c.mode.isSome

/-- `ProgressMsg` of searcher.rs (`u64` counters as `Nat`). -/
structure ProgressMsg where
  scanned_files : Nat
  scanned_dirs : Nat
  done : Bool
deriving DecidableEq

/-- A message sent by the scan: a `SearchMsg{path}` result or a
`ProgressMsg`. -/
inductive SMsg where
  | result (path : Path)
  | progress (msg : ProgressMsg)
deriving DecidableEq

/-- ASCII case folding of one character (models `to_lowercase` for the
names under consideration). -/
def lowerChar (c : Char) : Char :=
  if 65 ≤ c.toNat ∧ c.toNat ≤ 90 then Char.ofNat (c.toNat + 32) else c

/-- Case-folded character list of a string. -/
def lowerStr (s : String) : List Char := s.data.map lowerChar

/-- Substring test (`str::contains`). -/
def containsSub : List Char → List Char → Bool
  | needle, [] => needle.isEmpty
  | needle, c :: t => needle.isPrefixOf (c :: t) || containsSub needle t

/-- `name.to_lowercase().contains(&query.to_lowercase())`: the scan's
case-insensitive match, applied to the file name only. -/
def nameMatch (query name : String) : Bool :=
  containsSub (lowerStr query) (lowerStr name)

mutual
/-- `walk(dir, …)` of searcher.rs, as a timestamped message trace.
`sched t` is the value the shared cancellation flag is observed to hold at
the `t`-th poll (`abort.load`); each emitted message is paired with the
index of the poll that admitted it.  Returns (messages, next poll index,
(scanned_files, scanned_dirs)).  A `file` node models a path on which
`read_dir` fails. -/
def walkNode (sched : Nat → Bool) (q : String) (n : Node) (path : Path)
    (t : Nat) (c : Nat × Nat) : List (Nat × SMsg) × Nat × (Nat × Nat) :=
  if sched t then ([], t + 1, c) else
  match n with
  | .file _ => ([], t + 1, c)
  | .dir cs =>
    let c1 := (c.1, c.2 + 1)
    let r := walkEntries sched q cs path (t + 1) c1
    ((t, .progress ⟨c1.1, c1.2, false⟩) :: r.1, r.2)
/-- The entry loop of `walk`: poll the flag before each entry, recurse into
directories, count and match files. -/
def walkEntries (sched : Nat → Bool) (q : String)
    (cs : List (String × Node)) (path : Path) (t : Nat) (c : Nat × Nat) :
    List (Nat × SMsg) × Nat × (Nat × Nat) :=
  match cs with
  | [] => ([], t, c)
  | (a, child) :: rest =>
    if sched t then ([], t + 1, c) else
    match child with
    | .dir _ =>
      let r := walkNode sched q child (path ++ [a]) (t + 1) c
      let r2 := walkEntries sched q rest path r.2.1 r.2.2
      (r.1 ++ r2.1, r2.2)
    | .file _ =>
      let c2 := (c.1 + 1, c.2)
      let res := if nameMatch q a then [(t, SMsg.result (path ++ [a]))] else []
      let r2 := walkEntries sched q rest path (t + 1) c2
      (res ++ (t, .progress ⟨c2.1, c2.2, false⟩) :: r2.1, r2.2)
end

/-- `spawn_search`: run the walk from the root with fresh counters, then
always emit the final `done: true` progress message with the final
counters. -/
def runSearch (sched : Nat → Bool) (q : String) (root : Node)
    (rootPath : Path) : List (Nat × SMsg) :=
  let r := walkNode sched q root rootPath 0 (0, 0)
  r.1 ++ [(r.2.1, .progress ⟨r.2.2.1, r.2.2.2, true⟩)]

mutual
/-- Specification-side collection: the full paths of the non-directory
entries reachable under a node whose name matches, in traversal order. -/
def collectMatches (q : String) (n : Node) (path : Path) : List Path :=
  match n with
  | .file _ => []
  | .dir cs => collectMatchesL q cs path
def collectMatchesL (q : String) (cs : List (String × Node)) (path : Path) :
    List Path :=
  match cs with
  | [] => []
  | (a, child) :: rest =>
    match child with
    | .dir _ => collectMatches q child (path ++ [a]) ++ collectMatchesL q rest path
    | .file _ =>
      (if nameMatch q a then [path ++ [a]] else []) ++ collectMatchesL q rest path
end

mutual
/-- Number of non-directory entries reachable under a node (the root itself
is not an entry). -/
def countFiles : Node → Nat
  | .file _ => 0
  | .dir cs => countFilesL cs
def countFilesL : List (String × Node) → Nat
  | [] => 0
  | (_, child) :: rest =>
    match child with
    | .dir _ => countFiles child + countFilesL rest
    | .file _ => 1 + countFilesL rest
end

mutual
/-- Number of readable directories reachable under a node, the node itself
included when it is a directory. -/
def countDirs : Node → Nat
  | .file _ => 0
  | .dir cs => 1 + countDirsL cs
def countDirsL : List (String × Node) → Nat
  | [] => 0
  | (_, child) :: rest =>
    match child with
    | .dir _ => countDirs child + countDirsL rest
    | .file _ => countDirsL rest
end

/-- The result paths carried by a message trace. -/
def resultPaths (ms : List (Nat × SMsg)) : List Path :=
  ms.filterMap (fun pm => match pm.2 with | .result p => some p | _ => none)

/-- Pop from the undo log up to `f` times, collecting the records in the
order they come out. -/
def popList : Nat → OpsHistory → List Op
  | 0, _ => []
  | f + 1, h =>
    match h.pop_undo with
    | (some op, h2) => op :: popList f h2
    | (none, _) => []

/-- The clipboard invariant stated by the spec: an intent (mode) is present
iff the item set is non-empty. -/
def clipboardInvariant (c : Clipboard) : Prop :=
  c.mode.isSome = true ↔ c.items ≠ []

/-- An environment in which no failure is injected. -/
def envClean : Env := ⟨fun _ _ => false, fun _ => false⟩

/-- An environment in which every rename and every copy step fails. -/
def envFail : Env := ⟨fun _ _ => true, fun _ => true⟩

/-- 65 pairwise distinct operation records. -/
def wOps : List Op := (List.range 65).map (fun k => Op.mkDir [natToStr k])

/-- A root holding one existing directory `d`. -/
def c8fs : Node := .dir [("d", .dir [])]

/-- A root holding two files, `a` and `b`. -/
def c2fs : Node := .dir [("a", .file "A"), ("b", .file "B")]

/-- A root holding a file `a` and a directory `d`. -/
def c1fs : Node := .dir [("a", .file "x"), ("d", .dir [])]

theorem pfx_refl (p : Path) : pfx p p = true := by
  induction p with
  | nil => rfl
  | cons a p ih => simp [pfx, ih]

theorem pfx_append (p r : Path) : pfx p (p ++ r) = true := by
  induction p with
  | nil => rfl
  | cons a p ih => simp [pfx, ih]

theorem pfx_nil_right (p : Path) : pfx p [] = true → p = [] := by
  cases p with
  | nil => intro; rfl
  | cons a p => intro h; simp [pfx] at h

/-- If `p` is a proper or improper initial segment of `q`, it remains one
after extending `q` on the right. -/
theorem pfx_extend (p q : Path) (x : String) (h : pfx p q = true) :
    pfx p (q ++ [x]) = true := by
  induction p generalizing q with
  | nil => rfl
  | cons a p ih =>
    cases q with
    | nil => simp [pfx] at h
    | cons b q =>
      simp [pfx] at h
      simp [pfx, h.1, ih q h.2]

/-- An initial segment of `q ++ [x]` is an initial segment of `q` or is
`q ++ [x]` itself. -/
theorem pfx_snoc_cases (p q : Path) (x : String) (h : pfx p (q ++ [x]) = true) :
    pfx p q = true ∨ p = q ++ [x] := by
  induction p generalizing q with
  | nil => exact Or.inl rfl
  | cons a p ih =>
    cases q with
    | nil =>
      cases p with
      | nil =>
        simp [pfx] at h
        exact Or.inr (by simp [h])
      | cons c r => simp [pfx] at h
    | cons b q =>
      simp [pfx] at h
      rcases ih q h.2 with h1 | h1
      · exact Or.inl (by simp [pfx, h.1, h1])
      · exact Or.inr (by simp [h.1, h1])

theorem pfx_trans {p q r : Path} (h1 : pfx p q = true) (h2 : pfx q r = true) :
    pfx p r = true := by
  induction p generalizing q r with
  | nil => rfl
  | cons a p ih =>
    cases q with
    | nil => simp [pfx] at h1
    | cons b q =>
      cases r with
      | nil => simp [pfx] at h2
      | cons c r =>
        simp [pfx] at h1 h2
        simp [pfx, h1.1, h2.1, ih h1.2 h2.2]

/-- `pfx` really is the initial-segment relation. -/
theorem pfx_iff_append (p q : Path) : pfx p q = true ↔ ∃ r, q = p ++ r := by
  constructor
  · intro h
    induction p generalizing q with
    | nil => exact ⟨q, rfl⟩
    | cons a p ih =>
      cases q with
      | nil => simp [pfx] at h
      | cons b q =>
        simp [pfx] at h
        rcases ih q h.2 with ⟨r, hr⟩
        exact ⟨r, by simp [h.1, hr]⟩
  · rintro ⟨r, rfl⟩
    exact pfx_append p r

theorem pfx_dropLast (p q : Path) (h : pfx p (q.dropLast) = true) :
    pfx p q = true := by
  rcases (pfx_iff_append p q.dropLast).1 h with ⟨r, hr⟩
  cases hq : q.getLast? with
  | none =>
    cases q with
    | nil => simpa [List.dropLast] using h
    | cons b t => simp [List.getLast?_eq_none_iff] at hq
  | some x =>
    have : q = q.dropLast ++ [x] := by
      exact (List.dropLast_append_getLast? x hq).symm
    rw [this, hr, List.append_assoc]
    exact pfx_append p (r ++ [x])

theorem findChild_setChild_same (a : String) (m : Node) (cs : List (String × Node)) :
    findChild a (setChild a m cs) = some m := by
  induction cs with
  | nil => simp [setChild, findChild]
  | cons p rest ih =>
    obtain ⟨b, n⟩ := p
    by_cases h : a = b
    · simp [setChild, findChild, h]
    · simp [setChild, findChild, h, ih]

theorem findChild_setChild_ne (a b : String) (m : Node) (cs : List (String × Node))
    (h : a ≠ b) : findChild a (setChild b m cs) = findChild a cs := by
  induction cs with
  | nil => simp [setChild, findChild, h]
  | cons p rest ih =>
    obtain ⟨c, n⟩ := p
    by_cases hbc : b = c
    · subst hbc
      simp [setChild, findChild, h, ih]
    · by_cases hac : a = c
      · simp [setChild, findChild, hbc, hac]
      · simp [setChild, findChild, hbc, hac, ih]

theorem findChild_removeChild_ne (a b : String) (cs : List (String × Node))
    (h : a ≠ b) : findChild a (removeChild b cs) = findChild a cs := by
  induction cs with
  | nil => simp [removeChild, findChild]
  | cons p rest ih =>
    obtain ⟨c, n⟩ := p
    by_cases hbc : b = c
    · subst hbc
      simp [removeChild, findChild, h, ih]
    · by_cases hac : a = c
      · simp [removeChild, findChild, hbc, hac]
      · simp [removeChild, findChild, hbc, hac, ih]

theorem lookup_append (fs : Node) (p q : Path) :
    lookup fs (p ++ q) = (lookup fs p).bind (fun m => lookup m q) := by
  induction p generalizing fs with
  | nil => simp [lookup]
  | cons a p ih =>
    cases fs with
    | file c => simp [lookup]
    | dir cs =>
      simp only [List.cons_append, lookup]
      cases findChild a cs with
      | none => simp
      | some c => simp [ih c]

/-- Looking past a file along a longer path gives nothing. -/
theorem lookup_parent_dir (fs : Node) (p : Path) (x : String) (n : Node)
    (h : lookup fs (p ++ [x]) = some n) :
    ∃ cs, lookup fs p = some (.dir cs) := by
  rw [lookup_append] at h
  cases hp : lookup fs p with
  | none => rw [hp] at h; simp at h
  | some m =>
    rw [hp] at h
    cases m with
    | file c => simp [lookup] at h
    | dir cs => exact ⟨cs, rfl⟩

theorem insertAt_lookup_same (fs fs2 m : Node) (p : Path)
    (h : insertAt fs p m = some fs2) : lookup fs2 p = some m := by
  induction p generalizing fs fs2 with
  | nil => simp [insertAt] at h; simp [← h, lookup]
  | cons a p ih =>
    cases fs with
    | file c => simp [insertAt] at h
    | dir cs =>
      cases p with
      | nil =>
        simp [insertAt] at h
        simp [← h, lookup, findChild_setChild_same]
      | cons b q =>
        simp only [insertAt] at h
        cases hf : findChild a cs with
        | none => simp only [hf] at h; simp at h
        | some c =>
          simp only [hf] at h
          cases hi : insertAt c (b :: q) m with
          | none => simp only [hi] at h; simp at h
          | some c2 =>
            simp only [hi] at h; simp at h
            simp [← h, lookup, findChild_setChild_same, ih c c2 hi]

/-- Writing at `p` does not change the view at any path that is neither
above nor below `p`. -/
theorem insertAt_lookup_other (fs fs2 m : Node) (p q : Path)
    (h : insertAt fs p m = some fs2)
    (hpq : pfx p q = false) (hqp : pfx q p = false) :
    lookup fs2 q = lookup fs q := by
  induction p generalizing fs fs2 q with
  | nil => simp [pfx] at hpq
  | cons a p ih =>
    cases fs with
    | file c => simp [insertAt] at h
    | dir cs =>
      cases q with
      | nil => simp [pfx] at hqp
      | cons b q =>
        by_cases hab : a = b
        · subst hab
          simp [pfx] at hpq hqp
          cases p with
          | nil => simp [pfx] at hpq
          | cons a2 p2 =>
            simp only [insertAt] at h
            cases hf : findChild a cs with
            | none => simp only [hf] at h; simp at h
            | some c =>
              simp only [hf] at h
              cases hi : insertAt c (a2 :: p2) m with
              | none => simp only [hi] at h; simp at h
              | some c2 =>
                simp only [hi] at h; simp at h
                cases q with
                | nil => simp [pfx] at hqp
                | cons b2 q2 =>
                  simp [← h, lookup, findChild_setChild_same, hf,
                    ih c c2 (b2 :: q2) hi hpq hqp]
        · have step : ∀ fsx, insertAt (Node.dir cs) (a :: p) m = some fsx →
              lookup fsx (b :: q) = lookup (Node.dir cs) (b :: q) := by
            intro fsx hx
            cases p with
            | nil =>
              simp [insertAt] at hx
              simp [← hx, lookup, findChild_setChild_ne b a _ _ (fun hh => hab hh.symm)]
            | cons a2 p2 =>
              simp only [insertAt] at hx
              cases hf : findChild a cs with
              | none => simp only [hf] at hx; simp at hx
              | some c =>
                simp only [hf] at hx
                cases hi : insertAt c (a2 :: p2) m with
                | none => simp only [hi] at hx; simp at hx
                | some c2 =>
                  simp only [hi] at hx; simp at hx
                  simp [← hx, lookup, findChild_setChild_ne b a _ _ (fun hh => hab hh.symm)]
          exact step fs2 h

theorem removeAt_lookup_same (fs fs2 : Node) (p : Path)
    (h : removeAt fs p = some fs2) : lookup fs2 p = none := by
  induction p generalizing fs fs2 with
  | nil => simp [removeAt] at h
  | cons a p ih =>
    cases fs with
    | file c => simp [removeAt] at h
    | dir cs =>
      cases p with
      | nil =>
        simp only [removeAt] at h
        cases hf : findChild a cs with
        | none => simp only [hf] at h; simp at h
        | some c =>
          simp only [hf] at h; simp at h
          have hfr : findChild a (removeChild a cs) = none := by
            clear h hf
            induction cs with
            | nil => simp [removeChild, findChild]
            | cons pr rest ihc =>
              obtain ⟨b, n⟩ := pr
              by_cases hab : a = b
              · subst hab
                simp [removeChild, findChild, ihc]
              · simp [removeChild, findChild, hab, ihc]
          simp [← h, lookup, hfr]
      | cons b q =>
        simp only [removeAt] at h
        cases hf : findChild a cs with
        | none => simp only [hf] at h; simp at h
        | some c =>
          simp only [hf] at h
          cases hi : removeAt c (b :: q) with
          | none => simp only [hi] at h; simp at h
          | some c2 =>
            simp only [hi] at h; simp at h
            simp [← h, lookup, findChild_setChild_same, ih c c2 hi]

/-- Removing at `p` does not change the view at any path that is neither
above nor below `p`. -/
theorem removeAt_lookup_other (fs fs2 : Node) (p q : Path)
    (h : removeAt fs p = some fs2)
    (hpq : pfx p q = false) (hqp : pfx q p = false) :
    lookup fs2 q = lookup fs q := by
  induction p generalizing fs fs2 q with
  | nil => simp [removeAt] at h
  | cons a p ih =>
    cases fs with
    | file c => simp [removeAt] at h
    | dir cs =>
      cases q with
      | nil => simp [pfx] at hqp
      | cons b q =>
        by_cases hab : a = b
        · subst hab
          simp [pfx] at hpq hqp
          cases p with
          | nil => simp [pfx] at hpq
          | cons a2 p2 =>
            simp only [removeAt] at h
            cases hf : findChild a cs with
            | none => simp only [hf] at h; simp at h
            | some c =>
              simp only [hf] at h
              cases hi : removeAt c (a2 :: p2) with
              | none => simp only [hi] at h; simp at h
              | some c2 =>
                simp only [hi] at h; simp at h
                cases q with
                | nil => simp [pfx] at hqp
                | cons b2 q2 =>
                  simp [← h, lookup, findChild_setChild_same, hf,
                    ih c c2 (b2 :: q2) hi hpq hqp]
        · cases p with
          | nil =>
            simp only [removeAt] at h
            cases hf : findChild a cs with
            | none => simp only [hf] at h; simp at h
            | some c =>
              simp only [hf] at h; simp at h
              simp [← h, lookup, findChild_removeChild_ne b a _ (fun hh => hab hh.symm)]
          | cons a2 p2 =>
            simp only [removeAt] at h
            cases hf : findChild a cs with
            | none => simp only [hf] at h; simp at h
            | some c =>
              simp only [hf] at h
              cases hi : removeAt c (a2 :: p2) with
              | none => simp only [hi] at h; simp at h
              | some c2 =>
                simp only [hi] at h; simp at h
                simp [← h, lookup, findChild_setChild_ne b a _ _ (fun hh => hab hh.symm)]

/-- Fresh directory chains contain nothing away from their spine. -/
theorem mkDirs_lookup_none (p q : Path) (h : pfx q p = false) :
    lookup (mkDirs p) q = none := by
  induction p generalizing q with
  | nil =>
    cases q with
    | nil => simp [pfx] at h
    | cons x r => simp [mkDirs, lookup, findChild]
  | cons c t ih =>
    cases q with
    | nil => simp [pfx] at h
    | cons x r =>
      by_cases hxc : x = c
      · subst hxc
        simp [pfx] at h
        simp [mkDirs, lookup, findChild, ih r h]
      · simp [mkDirs, lookup, findChild, hxc]

theorem mkDirs_lookup_self (p : Path) : lookup (mkDirs p) p = some (.dir []) := by
  induction p with
  | nil => simp [mkDirs, lookup]
  | cons c t ih => simp [mkDirs, lookup, findChild, ih]

/-- `create_dir_all p` changes the view only at or below `p`:
any path that is not an initial segment of `p` reads the same. -/
theorem createDirAll_lookup_other (fs fs2 : Node) (p q : Path)
    (h : createDirAll fs p = some fs2) (hqp : pfx q p = false) :
    lookup fs2 q = lookup fs q := by
  induction p generalizing fs fs2 q with
  | nil =>
    cases fs with
    | file c => simp [createDirAll] at h
    | dir cs => simp [createDirAll] at h; simp [← h]
  | cons a p ih =>
    cases fs with
    | file c => simp [createDirAll] at h
    | dir cs =>
      cases q with
      | nil => simp [pfx] at hqp
      | cons b q =>
        by_cases hab : b = a
        · subst hab
          simp [pfx] at hqp
          cases hf : findChild b cs with
          | some c =>
            simp only [createDirAll, hf] at h
            cases hi : createDirAll c p with
            | none => simp only [hi] at h; simp at h
            | some c2 =>
              simp only [hi] at h; simp at h
              simp [← h, lookup, findChild_setChild_same, hf, ih c c2 q hi hqp]
          | none =>
            simp only [createDirAll, hf] at h
            simp at h
            simp [← h, lookup, findChild_setChild_same, hf, mkDirs_lookup_none p q hqp]
        · have hfind : ∀ m, findChild b (setChild a m cs) = findChild b cs :=
            fun m => findChild_setChild_ne b a m cs hab
          cases hf : findChild a cs with
          | some c =>
            simp only [createDirAll, hf] at h
            cases hi : createDirAll c p with
            | none => simp only [hi] at h; simp at h
            | some c2 =>
              simp only [hi] at h; simp at h
              simp [← h, lookup, hfind]
          | none =>
            simp only [createDirAll, hf] at h
            simp at h
            simp [← h, lookup, hfind]

/-- After a successful `create_dir_all p`, there is a directory at `p`. -/
theorem createDirAll_lookup_dir (fs fs2 : Node) (p : Path)
    (h : createDirAll fs p = some fs2) :
    ∃ ds, lookup fs2 p = some (.dir ds) := by
  induction p generalizing fs fs2 with
  | nil =>
    cases fs with
    | file c => simp [createDirAll] at h
    | dir cs => simp [createDirAll] at h; exact ⟨cs, by simp [← h, lookup]⟩
  | cons a p ih =>
    cases fs with
    | file c => simp [createDirAll] at h
    | dir cs =>
      cases hf : findChild a cs with
      | some c =>
        simp only [createDirAll, hf] at h
        cases hi : createDirAll c p with
        | none => simp only [hi] at h; simp at h
        | some c2 =>
          simp only [hi] at h; simp at h
          rcases ih c c2 hi with ⟨ds, hds⟩
          exact ⟨ds, by simp [← h, lookup, findChild_setChild_same, hds]⟩
      | none =>
        simp only [createDirAll, hf] at h
        simp at h
        exact ⟨[], by simp [← h, lookup, findChild_setChild_same, mkDirs_lookup_self p]⟩

theorem setChild_findChild_id (a : String) (c : Node) (cs : List (String × Node))
    (h : findChild a cs = some c) : setChild a c cs = cs := by
  induction cs with
  | nil => simp [findChild] at h
  | cons pr rest ih =>
    obtain ⟨b, n⟩ := pr
    by_cases hab : a = b
    · subst hab
      simp [findChild] at h
      simp [setChild, h]
    · simp [findChild, hab] at h
      simp [setChild, hab, ih h]

/-- `create_dir_all` over a path that already exists as a directory is the
identity (idempotent-success). -/
theorem createDirAll_id (fs : Node) (p : Path) (ds : List (String × Node))
    (h : lookup fs p = some (.dir ds)) : createDirAll fs p = some fs := by
  induction p generalizing fs ds with
  | nil => simp [lookup] at h; simp [h, createDirAll]
  | cons a p ih =>
    cases fs with
    | file c => simp [lookup] at h
    | dir cs =>
      simp only [lookup] at h
      cases hf : findChild a cs with
      | none => simp [hf] at h
      | some c =>
        simp only [hf] at h
        simp [createDirAll, hf, ih c ds h, setChild_findChild_id a c cs hf]

/-- `create_dir_all` never destroys a directory: any path that was a
directory before is still one after. -/
theorem createDirAll_dir_preserved (fs fs2 : Node) (p r : Path)
    (ds : List (String × Node))
    (h : createDirAll fs p = some fs2) (hr : lookup fs r = some (.dir ds)) :
    ∃ ds2, lookup fs2 r = some (.dir ds2) := by
  by_cases hrp : pfx r p = true
  · induction r generalizing fs fs2 p ds with
    | nil =>
      simp [lookup] at hr
      subst hr
      cases p with
      | nil => simp [createDirAll] at h; exact ⟨ds, by simp [← h, lookup]⟩
      | cons a p =>
        simp only [createDirAll] at h
        cases hf : findChild a ds with
        | some c =>
          simp only [hf] at h
          cases hi : createDirAll c p with
          | none => simp only [hi] at h; simp at h
          | some c2 =>
            simp only [hi] at h; simp at h
            exact ⟨setChild a c2 ds, by simp [← h, lookup]⟩
        | none =>
          simp only [hf] at h; simp at h
          exact ⟨setChild a (mkDirs p) ds, by simp [← h, lookup]⟩
    | cons b r ih =>
      cases p with
      | nil => simp [pfx] at hrp
      | cons a p =>
        simp only [pfx] at hrp
        simp only [Bool.and_eq_true, beq_iff_eq] at hrp
        obtain ⟨hba, hrp2⟩ := hrp
        subst hba
        cases fs with
        | file c => simp [lookup] at hr
        | dir cs =>
          simp only [lookup] at hr
          cases hf : findChild b cs with
          | none => simp [hf] at hr
          | some c =>
            simp only [hf] at hr
            simp only [createDirAll, hf] at h
            cases hi : createDirAll c p with
            | none => simp only [hi] at h; simp at h
            | some c2 =>
              simp only [hi] at h; simp at h
              rcases ih c c2 p ds hi hr hrp2 with ⟨ds2, hds2⟩
              exact ⟨ds2, by simp [← h, lookup, findChild_setChild_same, hds2]⟩
  · have := createDirAll_lookup_other fs fs2 p r h (by simpa using hrp)
    exact ⟨ds, by rw [this, hr]⟩

/-- Writing under an existing directory succeeds. -/
theorem insertAt_succeeds (fs : Node) (q : Path) (x : String) (m : Node)
    (ds : List (String × Node)) (h : lookup fs q = some (.dir ds)) :
    ∃ fs2, insertAt fs (q ++ [x]) m = some fs2 := by
  induction q generalizing fs ds with
  | nil =>
    simp [lookup] at h
    subst h
    exact ⟨.dir (setChild x m ds), by simp [insertAt]⟩
  | cons a q ih =>
    cases fs with
    | file c => simp [lookup] at h
    | dir cs =>
      simp only [lookup] at h
      cases hf : findChild a cs with
      | none => simp [hf] at h
      | some c =>
        simp only [hf] at h
        rcases ih c ds h with ⟨c2, hc2⟩
        refine ⟨.dir (setChild a c2 cs), ?_⟩
        obtain ⟨b, q2, hbq⟩ : ∃ b q2, q ++ [x] = b :: q2 := by
          cases q with
          | nil => exact ⟨x, [], rfl⟩
          | cons u v => exact ⟨u, v ++ [x], rfl⟩
        rw [List.cons_append, hbq]
        simp only [insertAt, hf]
        rw [← hbq, hc2]
        rfl

/-- Removing an existing (non-root) entry succeeds. -/
theorem removeAt_succeeds (fs : Node) (q : Path) (x : String) (n : Node)
    (h : lookup fs (q ++ [x]) = some n) :
    ∃ fs2, removeAt fs (q ++ [x]) = some fs2 := by
  induction q generalizing fs with
  | nil =>
    cases fs with
    | file c => simp [lookup] at h
    | dir cs =>
      simp only [List.nil_append, lookup] at h
      cases hf : findChild x cs with
      | none => simp [hf] at h
      | some c => exact ⟨.dir (removeChild x cs), by simp [removeAt, hf]⟩
  | cons a q ih =>
    cases fs with
    | file c => simp [lookup] at h
    | dir cs =>
      simp only [List.cons_append, lookup] at h
      cases hf : findChild a cs with
      | none => simp [hf] at h
      | some c =>
        simp only [hf] at h
        rcases ih c h with ⟨c2, hc2⟩
        refine ⟨.dir (setChild a c2 cs), ?_⟩
        obtain ⟨b, q2, hbq⟩ : ∃ b q2, q ++ [x] = b :: q2 := by
          cases q with
          | nil => exact ⟨x, [], rfl⟩
          | cons u v => exact ⟨u, v ++ [x], rfl⟩
        rw [List.cons_append, hbq]
        simp only [removeAt, hf]
        rw [← hbq, hc2]
        rfl

/-- Writing at `t` never destroys a directory sitting elsewhere
(anywhere not at or below `t`). -/
theorem insertAt_dir_preserved (fs fs2 m : Node) (t r : Path)
    (ds : List (String × Node))
    (h : insertAt fs t m = some fs2) (htr : pfx t r = false)
    (hr : lookup fs r = some (.dir ds)) :
    ∃ ds2, lookup fs2 r = some (.dir ds2) := by
  by_cases hrt : pfx r t = true
  · induction r generalizing fs fs2 t ds with
    | nil =>
      cases t with
      | nil => simp [pfx] at htr
      | cons a t2 =>
        simp [lookup] at hr
        subst hr
        cases t2 with
        | nil =>
          simp [insertAt] at h
          exact ⟨setChild a m ds, by simp [← h, lookup]⟩
        | cons b t3 =>
          simp only [insertAt] at h
          cases hf : findChild a ds with
          | none => simp only [hf] at h; simp at h
          | some c =>
            simp only [hf] at h
            cases hi : insertAt c (b :: t3) m with
            | none => simp only [hi] at h; simp at h
            | some c2 =>
              simp only [hi] at h; simp at h
              exact ⟨setChild a c2 ds, by simp [← h, lookup]⟩
    | cons b r2 ih =>
      cases t with
      | nil => simp [pfx] at hrt
      | cons a t2 =>
        simp only [pfx] at hrt htr
        simp only [Bool.and_eq_true, beq_iff_eq] at hrt
        obtain ⟨hba, hrt2⟩ := hrt
        subst hba
        simp only [beq_self_eq_true, Bool.true_and] at htr
        cases fs with
        | file c => simp [insertAt] at h
        | dir cs =>
          simp only [lookup] at hr
          cases hf : findChild b cs with
          | none => simp [hf] at hr
          | some c =>
            simp only [hf] at hr
            cases t2 with
            | nil => simp [pfx] at htr
            | cons a2 t3 =>
              simp only [insertAt] at h
              simp only [hf] at h
              cases hi : insertAt c (a2 :: t3) m with
              | none => simp only [hi] at h; simp at h
              | some c2 =>
                simp only [hi] at h; simp at h
                rcases ih c c2 (a2 :: t3) ds hi htr hr hrt2 with ⟨ds2, hds2⟩
                exact ⟨ds2, by simp [← h, lookup, findChild_setChild_same, hds2]⟩
  · have := insertAt_lookup_other fs fs2 m t r h htr (by simpa using hrt)
    exact ⟨ds, by rw [this, hr]⟩

/-- Removing at `t` never destroys a directory sitting elsewhere. -/
theorem removeAt_dir_preserved (fs fs2 : Node) (t r : Path)
    (ds : List (String × Node))
    (h : removeAt fs t = some fs2) (htr : pfx t r = false)
    (hr : lookup fs r = some (.dir ds)) :
    ∃ ds2, lookup fs2 r = some (.dir ds2) := by
  by_cases hrt : pfx r t = true
  · induction r generalizing fs fs2 t ds with
    | nil =>
      cases t with
      | nil => simp [removeAt] at h
      | cons a t2 =>
        simp [lookup] at hr
        subst hr
        cases t2 with
        | nil =>
          simp only [removeAt] at h
          cases hf : findChild a ds with
          | none => simp only [hf] at h; simp at h
          | some c =>
            simp only [hf] at h; simp at h
            exact ⟨removeChild a ds, by simp [← h, lookup]⟩
        | cons b t3 =>
          simp only [removeAt] at h
          cases hf : findChild a ds with
          | none => simp only [hf] at h; simp at h
          | some c =>
            simp only [hf] at h
            cases hi : removeAt c (b :: t3) with
            | none => simp only [hi] at h; simp at h
            | some c2 =>
              simp only [hi] at h; simp at h
              exact ⟨setChild a c2 ds, by simp [← h, lookup]⟩
    | cons b r2 ih =>
      cases t with
      | nil => simp [removeAt] at h
      | cons a t2 =>
        simp only [pfx] at hrt htr
        simp only [Bool.and_eq_true, beq_iff_eq] at hrt
        obtain ⟨hba, hrt2⟩ := hrt
        subst hba
        simp only [beq_self_eq_true, Bool.true_and] at htr
        cases fs with
        | file c => simp [removeAt] at h
        | dir cs =>
          simp only [lookup] at hr
          cases hf : findChild b cs with
          | none => simp [hf] at hr
          | some c =>
            simp only [hf] at hr
            cases t2 with
            | nil => simp [pfx] at htr
            | cons a2 t3 =>
              simp only [removeAt] at h
              simp only [hf] at h
              cases hi : removeAt c (a2 :: t3) with
              | none => simp only [hi] at h; simp at h
              | some c2 =>
                simp only [hi] at h; simp at h
                rcases ih c c2 (a2 :: t3) ds hi htr hr hrt2 with ⟨ds2, hds2⟩
                exact ⟨ds2, by simp [← h, lookup, findChild_setChild_same, hds2]⟩
  · have := removeAt_lookup_other fs fs2 t r h htr (by simpa using hrt)
    exact ⟨ds, by rw [this, hr]⟩

theorem valBE_snoc (l : List Nat) (d : Nat) : valBE (l ++ [d]) = valBE l * 10 + d := by
  simp [valBE, List.foldl_append]

theorem decDigitsFuel_val (f : Nat) : ∀ n, n < f → valBE (decDigitsFuel f n) = n := by
  induction f with
  | zero => intro n h; omega
  | succ f ih =>
    intro n h
    by_cases h10 : n < 10
    · simp [decDigitsFuel, h10, valBE]
    · have hdiv : n / 10 < f := by
        have := Nat.div_lt_self (by omega : 0 < n) (by omega : 1 < 10)
        omega
      simp only [decDigitsFuel, h10, if_false, valBE_snoc, ih (n / 10) hdiv]
      omega

theorem decDigits_val (n : Nat) : valBE (decDigits n) = n :=
  decDigitsFuel_val (n + 1) n (Nat.lt_succ_self n)

theorem decDigits_inj {m n : Nat} (h : decDigits m = decDigits n) : m = n := by
  have := congrArg valBE h
  rwa [decDigits_val, decDigits_val] at this

theorem decDigitsFuel_lt_ten (f : Nat) : ∀ n d, d ∈ decDigitsFuel f n → d < 10 := by
  induction f with
  | zero => intro n d h; simp [decDigitsFuel] at h
  | succ f ih =>
    intro n d h
    by_cases h10 : n < 10
    · simp [decDigitsFuel, h10] at h; omega
    · simp only [decDigitsFuel, h10, if_false, List.mem_append, List.mem_singleton] at h
      rcases h with h | h
      · exact ih (n / 10) d h
      · subst h; exact Nat.mod_lt n (by omega)

theorem decDigitsFuel_ne_nil (f n : Nat) (h : 0 < f) : decDigitsFuel f n ≠ [] := by
  cases f with
  | zero => omega
  | succ f =>
    by_cases h10 : n < 10
    · simp [decDigitsFuel, h10]
    · simp [decDigitsFuel, h10]

theorem digitChar_inj :
    ∀ d, d < 10 → ∀ e, e < 10 → digitChar d = digitChar e → d = e := by decide

theorem map_digitChar_inj :
    ∀ l1 l2 : List Nat, (∀ d ∈ l1, d < 10) → (∀ d ∈ l2, d < 10) →
      l1.map digitChar = l2.map digitChar → l1 = l2 := by
  intro l1
  induction l1 with
  | nil => intro l2 _ _ h; cases l2 with | nil => rfl | cons d t => simp at h
  | cons d t ih =>
    intro l2 h1 h2 h
    cases l2 with
    | nil => simp at h
    | cons e u =>
      simp only [List.map_cons, List.cons.injEq] at h
      have hd : d = e :=
        digitChar_inj d (h1 d (by simp)) e (h2 e (by simp)) h.1
      have ht : t = u := ih u (fun x hx => h1 x (by simp [hx]))
        (fun x hx => h2 x (by simp [hx])) h.2
      simp [hd, ht]

theorem natToStr_inj {m n : Nat} (h : natToStr m = natToStr n) : m = n := by
  unfold natToStr at h
  injection h with h
  exact decDigits_inj (map_digitChar_inj _ _
    (fun d hd => decDigitsFuel_lt_ten _ _ d hd)
    (fun d hd => decDigitsFuel_lt_ten _ _ d hd) h)

theorem candName_inj (name : String) {i j : Nat}
    (h : candName name i = candName name j) : i = j := by
  unfold candName at h
  have hd := congrArg String.data h
  simp only [String.data_append, List.append_assoc] at hd
  have h1 := List.append_cancel_left hd
  have h2 := List.append_cancel_left h1
  have h3 := List.append_cancel_right h2
  exact natToStr_inj (String.ext h3)

theorem natToStr_length_pos (i : Nat) : 0 < (natToStr i).data.length := by
  unfold natToStr
  simp only [String.data]
  rw [List.length_map]
  rcases hl : decDigits i with _ | ⟨d, t⟩
  · exact absurd hl (decDigitsFuel_ne_nil _ _ (by omega))
  · simp

theorem candName_ne_name (name : String) (i : Nat) : candName name i ≠ name := by
  intro h
  have hd := congrArg String.data h
  unfold candName at hd
  simp only [String.data_append] at hd
  have := congrArg List.length hd
  simp only [List.length_append] at this
  have := natToStr_length_pos i
  have h2 : (" (" : String).data.length = 2 := rfl
  have h3 : (")" : String).data.length = 1 := rfl
  omega

theorem findChild_some_mem (a : String) (cs : List (String × Node)) (n : Node)
    (h : findChild a cs = some n) : a ∈ cs.map Prod.fst := by
  induction cs with
  | nil => simp [findChild] at h
  | cons pr rest ih =>
    obtain ⟨b, m⟩ := pr
    by_cases hab : a = b
    · simp [hab]
    · rw [show findChild a ((b, m) :: rest) = findChild a rest by
        simp [findChild, hab]] at h
      simp [hab, ih h]

theorem pathExists_mem_childNames (fs : Node) (d : Path) (c : String)
    (h : pathExists fs (d ++ [c]) = true) : c ∈ childNames fs d := by
  unfold pathExists at h
  rw [lookup_append] at h
  cases hd : lookup fs d with
  | none => rw [hd] at h; simp at h
  | some m =>
    rw [hd] at h
    cases m with
    | file s => simp [lookup] at h
    | dir cs =>
      simp only [Option.some_bind, lookup] at h
      cases hf : findChild c cs with
      | none => rw [hf] at h; simp at h
      | some n =>
        unfold childNames
        rw [hd]
        exact findChild_some_mem c cs n hf

/-- Pigeonhole: among the first `|children| + 1` candidate indices, some
candidate name is unused. -/
theorem findFree_window (fs : Node) (d : Path) (name : String) :
    ∃ k, k < (childNames fs d).length + 1 ∧
      pathExists fs (d ++ [candName name (1 + k)]) = false := by
  by_contra hcon
  push_neg at hcon
  set N := (childNames fs d).length with hN
  have hocc : ∀ k, k < N + 1 → candName name (1 + k) ∈ childNames fs d := by
    intro k hk
    have := hcon k hk
    have hx : pathExists fs (d ++ [candName name (1 + k)]) = true := by
      cases hp : pathExists fs (d ++ [candName name (1 + k)]) with
      | false => exact absurd hp this
      | true => rfl
    exact pathExists_mem_childNames fs d _ hx
  have hinj : Function.Injective (fun k : Nat => candName name (1 + k)) := by
    intro x y hxy
    have := candName_inj name hxy
    omega
  have hnodup : ((List.range (N + 1)).map (fun k => candName name (1 + k))).Nodup :=
    (List.nodup_range (N + 1)).map hinj
  have hsub : ((List.range (N + 1)).map (fun k => candName name (1 + k))) ⊆
      childNames fs d := by
    intro x hx
    simp only [List.mem_map, List.mem_range] at hx
    rcases hx with ⟨k, hk, rfl⟩
    exact hocc k hk
  have hlen := (List.subperm_of_subset hnodup hsub).length_le
  simp only [List.length_map, List.length_range] at hlen
  omega

/-- The fuel-driven loop returns the least free index at or after its start,
provided a free index lies inside the fuel window. -/
theorem findFree_spec (fs : Node) (d : Path) (name : String) :
    ∀ f i, (∃ k, k < f ∧ pathExists fs (d ++ [candName name (i + k)]) = false) →
      pathExists fs (d ++ [candName name (findFree fs d name f i)]) = false ∧
      i ≤ findFree fs d name f i ∧
      ∀ j, i ≤ j → j < findFree fs d name f i →
        pathExists fs (d ++ [candName name j]) = true := by
  intro f
  induction f with
  | zero => intro i ⟨k, hk, _⟩; omega
  | succ f ih =>
    intro i ⟨k, hk, hfree⟩
    by_cases hocc : pathExists fs (d ++ [candName name i]) = true
    · have hk0 : k ≠ 0 := by
        intro h0; subst h0; simp at hfree; rw [hfree] at hocc; simp at hocc
      have hrec := ih (i + 1) ⟨k - 1, by omega, by
        have : i + 1 + (k - 1) = i + k := by omega
        rw [this]; exact hfree⟩
      rw [findFree, if_pos hocc] at *
      refine ⟨hrec.1, by omega, ?_⟩
      intro j hij hjr
      by_cases hji : j = i
      · subst hji; exact hocc
      · exact hrec.2.2 j (by omega) hjr
    · have hocc2 : pathExists fs (d ++ [candName name i]) = false := by
        cases hp : pathExists fs (d ++ [candName name i]) with
        | true => exact absurd hp hocc
        | false => rfl
      rw [findFree, if_neg (by simp [hocc2])]
      exact ⟨hocc2, le_refl i, fun j h1 h2 => by omega⟩

/-- `unique_in` always returns a path that does not currently exist. -/
theorem unique_in_not_exists (fs : Node) (d : Path) (name : String) :
    pathExists fs (unique_in fs d name) = false := by
  unfold unique_in
  by_cases hb : pathExists fs (d ++ [name]) = true
  · rw [if_pos hb]
    rcases findFree_window fs d name with ⟨k, hk, hfree⟩
    exact (findFree_spec fs d name ((childNames fs d).length + 1) 1
      ⟨k, hk, hfree⟩).1
  · rw [if_neg hb]
    cases hp : pathExists fs (d ++ [name]) with
    | true => exact absurd hp hb
    | false => rfl


theorem push_no_evict (h : OpsHistory) (op : Op)
    (hne : h.undo.length ≠ h.capacity) : (h.push op).undo = h.undo ++ [op] := by
  simp [OpsHistory.push, hne]

theorem push_evict (h : OpsHistory) (op : Op)
    (he : h.undo.length = h.capacity) : (h.push op).undo = h.undo.tail ++ [op] := by
  simp [OpsHistory.push, he]

theorem push_capacity (h : OpsHistory) (op : Op) :
    (h.push op).capacity = h.capacity := rfl

theorem push_length_zero_cap (h : OpsHistory) (op : Op) (hc : h.capacity = 0) :
    (h.push op).undo.length = h.undo.length + 1 := by
  by_cases hl : h.undo.length = h.capacity
  · have : h.undo = [] := List.length_eq_zero.mp (by omega)
    simp [OpsHistory.push, hl, this]
  · simp [OpsHistory.push, hl]

theorem pushAll_zero_cap (ops : List Op) :
    ∀ h : OpsHistory, h.capacity = 0 →
      (h.pushAll ops).undo.length = h.undo.length + ops.length := by
  induction ops with
  | nil => intro h _; simp [OpsHistory.pushAll]
  | cons op rest ih =>
    intro h hc
    have h1 : (h.push op).capacity = 0 := by rw [push_capacity, hc]
    have h2 := ih (h.push op) h1
    have h3 := push_length_zero_cap h op hc
    simp only [OpsHistory.pushAll, List.foldl_cons] at h2 ⊢
    rw [h2, h3, List.length_cons]
    omega

theorem push_length_le (h : OpsHistory) (op : Op)
    (hcap : 1 ≤ h.capacity) (hle : h.undo.length ≤ h.capacity) :
    (h.push op).undo.length ≤ h.capacity := by
  by_cases hl : h.undo.length = h.capacity
  · rw [push_evict h op hl]
    simp [List.length_tail]
    omega
  · rw [push_no_evict h op hl]
    simp
    omega

theorem pop_length_le (h : OpsHistory) :
    (h.pop_undo).2.undo.length ≤ h.undo.length := by
  unfold OpsHistory.pop_undo
  cases hg : h.undo.getLast? with
  | some op => simp [List.length_dropLast]
  | none => simp

theorem pop_capacity (h : OpsHistory) : (h.pop_undo).2.capacity = h.capacity := by
  unfold OpsHistory.pop_undo
  cases hg : h.undo.getLast? with
  | some op => simp
  | none => simp

theorem pushAll_fits : ∀ (ops : List Op) (h : OpsHistory),
    h.undo.length + ops.length ≤ h.capacity →
    (h.pushAll ops).undo = h.undo ++ ops ∧ (h.pushAll ops).capacity = h.capacity := by
  intro ops
  induction ops with
  | nil => intro h _; simp [OpsHistory.pushAll]
  | cons op rest ih =>
    intro h hle
    simp only [List.length_cons] at hle
    have hne : h.undo.length ≠ h.capacity := by omega
    have hpush := push_no_evict h op hne
    have hlen : (h.push op).undo.length + rest.length ≤ (h.push op).capacity := by
      rw [hpush, push_capacity]
      simp
      omega
    have := ih (h.push op) hlen
    simp only [OpsHistory.pushAll, List.foldl_cons] at this ⊢
    rw [this.1, this.2, hpush, push_capacity]
    simp

theorem popList_reverse : ∀ (l : List Op) (cap : Nat),
    popList l.length (OpsHistory.mk l cap) = l.reverse := by
  intro l
  induction l using List.reverseRecOn with
  | nil => intro cap; simp [popList]
  | append_singleton xs x ih =>
    intro cap
    have hlen : (xs ++ [x]).length = xs.length + 1 := by simp
    rw [hlen]
    simp only [popList, OpsHistory.pop_undo]
    rw [List.getLast?_concat, List.dropLast_concat]
    simp [ih cap]

/-- C3: the undo log as constructed (capacity 64) never exceeds its
capacity under push and pop; a push at capacity evicts the oldest record
(FIFO eviction); `pop_undo` returns the most recently pushed record (LIFO);
and after pushing `capacity + 1` distinct records the first-pushed record
is no longer retrievable while the remaining 64 pop in reverse push
order. -/
theorem undo_log_capacity_fifo_lifo :
    (∀ (h : OpsHistory) (op : Op), h.capacity = 64 → h.undo.length ≤ 64 →
      ((h.push op).undo.length ≤ 64 ∧ (h.pop_undo).2.undo.length ≤ 64)) ∧
    (∀ (h : OpsHistory) (op : Op), h.capacity = 64 → h.undo.length = 64 →
      (h.push op).undo = h.undo.tail ++ [op]) ∧
    (∀ (h : OpsHistory) (op : Op), ((h.push op).pop_undo).1 = some op) ∧
    (∀ l : List Op, l.length = 65 → l.Nodup →
      ((OpsHistory.new 64).pushAll l).undo = l.tail ∧
      (∀ r0, l.head? = some r0 → r0 ∉ ((OpsHistory.new 64).pushAll l).undo) ∧
      popList 64 ((OpsHistory.new 64).pushAll l) = l.tail.reverse) := by
  refine ⟨?_, ?_, ?_, ?_⟩
  · intro h op hc hle
    constructor
    · have := push_length_le h op (by omega) (by omega)
      omega
    · have := pop_length_le h
      omega
  · intro h op hc hl
    exact push_evict h op (by omega)
  · intro h op
    simp [OpsHistory.push, OpsHistory.pop_undo, List.getLast?_concat]
  · intro l hlen hnd
    induction l using List.reverseRecOn with
    | nil => simp at hlen
    | append_singleton xs x _ =>
      have hxs : xs.length = 64 := by simp at hlen; omega
      have hfit : (OpsHistory.new 64).undo.length + xs.length ≤
          (OpsHistory.new 64).capacity := by simp [OpsHistory.new, hxs]
      have hfill := pushAll_fits xs (OpsHistory.new 64) hfit
      have hfill1 : ((OpsHistory.new 64).pushAll xs).undo = xs := by
        rw [hfill.1]; simp [OpsHistory.new]
      have hxsne : xs ≠ [] := by intro h0; rw [h0] at hxs; simp at hxs
      have hpushfold : (OpsHistory.new 64).pushAll (xs ++ [x]) =
          ((OpsHistory.new 64).pushAll xs).push x := by
        simp [OpsHistory.pushAll]
      have hevict : (((OpsHistory.new 64).pushAll xs).push x).undo =
          xs.tail ++ [x] := by
        rw [push_evict _ x (by rw [hfill1, hfill.2]; simp [OpsHistory.new, hxs]),
          hfill1]
      have htail : (xs ++ [x]).tail = xs.tail ++ [x] := by
        cases xs with
        | nil => exact absurd rfl hxsne
        | cons y ys => simp
      refine ⟨by rw [hpushfold, hevict, htail], ?_, ?_⟩
      · intro r0 hr0 hmem
        rw [hpushfold, hevict] at hmem
        cases xs with
        | nil => exact absurd rfl hxsne
        | cons y ys =>
          simp only [List.cons_append, List.head?_cons, Option.some.injEq] at hr0
          subst hr0
          have hnd2 : (y ∉ ys ∧ ¬ y = x) ∧ (ys ++ [x]).Nodup := by simpa using hnd
          simp only [List.tail_cons] at hmem
          rcases List.mem_append.mp hmem with hm | hm
          · exact hnd2.1.1 hm
          · exact hnd2.1.2 (by simpa using hm)
      · rw [hpushfold]
        have hcap : ((OpsHistory.new 64).pushAll xs).push x =
            OpsHistory.mk (xs.tail ++ [x]) 64 := by
          have h1 : (((OpsHistory.new 64).pushAll xs).push x).capacity = 64 := by
            rw [push_capacity, hfill.2]; rfl
          have h2 := hevict
          cases hmk : ((OpsHistory.new 64).pushAll xs).push x with
          | mk u c =>
            rw [hmk] at h1 h2
            simp at h1 h2
            simp [h1, h2]
        rw [hcap, htail]
        have hlen2 : (xs.tail ++ [x]).length = 64 := by
          simp [List.length_tail, hxs]
        nth_rewrite 1 [← hlen2]
        exact popList_reverse (xs.tail ++ [x]) 64

/-- C3 witness: pushing 65 distinct records into the log constructed with
capacity 64 drops exactly the first and pops the rest in reverse order. -/
theorem undo_log_capacity_fifo_lifo_witness :
    ((OpsHistory.new 64).pushAll wOps).undo = wOps.tail ∧
    (∀ r0, wOps.head? = some r0 → r0 ∉ ((OpsHistory.new 64).pushAll wOps).undo) ∧
    popList 64 ((OpsHistory.new 64).pushAll wOps) = wOps.tail.reverse :=
  undo_log_capacity_fifo_lifo.2.2.2 wOps (by simp [wOps])
    ((List.nodup_range 65).map (fun a b hab => by
      simp only [Op.mkDir.injEq, List.cons.injEq] at hab
      exact natToStr_inj hab.1))

/-- C10: `push` evicts only when the length equals the capacity exactly: a
log whose length differs from its capacity (in particular the derived
`Default` with capacity 0 once it is non-empty) appends without removal, so
a capacity-0 log grows without bound; the length bound is an invariant of
`push` and `pop_undo` for logs with capacity at least 1. -/
theorem push_evicts_only_at_exact_capacity :
    (∀ (h : OpsHistory) (op : Op), h.undo.length ≠ h.capacity →
      (h.push op).undo = h.undo ++ [op]) ∧
    (∀ ops : List Op, (OpsHistory.mkDefault.pushAll ops).undo.length = ops.length) ∧
    (∀ (h : OpsHistory) (op : Op), 1 ≤ h.capacity → h.undo.length ≤ h.capacity →
      (h.push op).undo.length ≤ h.capacity) ∧
    (∀ h : OpsHistory, (h.pop_undo).2.undo.length ≤ h.undo.length) := by
  refine ⟨push_no_evict, ?_, push_length_le, pop_length_le⟩
  intro ops
  have := pushAll_zero_cap ops OpsHistory.mkDefault rfl
  simpa [OpsHistory.mkDefault] using this

/-- C10 witness: a capacity-0 log with one record appends without evicting. -/
theorem push_evicts_only_at_exact_capacity_witness :
    ((OpsHistory.mk [Op.mkDir ["a"]] 0).push (Op.mkDir ["b"])).undo =
      [Op.mkDir ["a"], Op.mkDir ["b"]] := by
  have := push_evicts_only_at_exact_capacity.1 (OpsHistory.mk [Op.mkDir ["a"]] 0)
    (Op.mkDir ["b"]) (by simp)
  simpa using this

/-- C9 counterexample: `set` with an empty item list yields a clipboard
whose intent is present while the item set is empty, violating the stated
invariant (the claim asserts `set` with any argument list preserves it). -/
theorem clipboard_set_empty_breaks_invariant :
    (Clipboard.mkDefault.set [] Mode.copy).mode.isSome = true ∧
    (Clipboard.mkDefault.set [] Mode.copy).items = [] ∧
    ¬ clipboardInvariant (Clipboard.mkDefault.set [] Mode.copy) := by
  refine ⟨rfl, rfl, ?_⟩
  intro hinv
  have := hinv.mp rfl
  simp [Clipboard.set, Clipboard.mkDefault] at this

/-- C9 amended: the intent-iff-non-empty invariant holds for the default
clipboard, is preserved by `clear` and by `set` with a non-empty item list;
`set` with an empty list breaks it (intent present, no items), though
`has_items` still answers `false` for such a clipboard. -/
theorem clipboard_invariant_amended :
    clipboardInvariant Clipboard.mkDefault ∧
    (∀ c : Clipboard, clipboardInvariant c.clear) ∧
    (∀ (c : Clipboard) (items : List Path) (mode : Mode), items ≠ [] →
      clipboardInvariant (c.set items mode)) ∧
    (∀ (c : Clipboard) (mode : Mode),
      (c.set [] mode).mode.isSome = true ∧ (c.set [] mode).has_items = false) := by
  refine ⟨?_, ?_, ?_, ?_⟩
  · simp [clipboardInvariant, Clipboard.mkDefault]
  · intro c; simp [clipboardInvariant, Clipboard.clear]
  · intro c items mode hne
    simp [clipboardInvariant, Clipboard.set, hne]
  · intro c mode
    simp [Clipboard.set, Clipboard.has_items]

/-- C9 witness: `set` with one item establishes the invariant. -/
theorem clipboard_invariant_amended_witness :
    clipboardInvariant (Clipboard.mkDefault.set [["a"]] Mode.cut) :=
  clipboard_invariant_amended.2.2.1 Clipboard.mkDefault [["a"]] Mode.cut (by simp)


/-- C8 counterexample: `mkdir` over an already-existing directory succeeds,
leaves the filesystem unchanged, and still produces an operation record —
the engine does record a no-op. -/
theorem mkdir_existing_records_noop :
    mkdir c8fs [] "d" = (c8fs, some (.mkDir ["d"])) := by
  simp [mkdir, createDirAll, findChild, setChild, c8fs]

/-- C8 amended: every record produced by a successful `mkdir` or `touch`
names the operated path, which exists (as a directory resp. file) in the
post-operation state; however the engine does record no-ops: `mkdir` over
an existing directory and `touch` over an existing file succeed with the
filesystem unchanged and still return a record. -/
theorem mkdir_touch_record_semantics :
    (∀ (fs : Node) (wh : Path) (nm : String) (fs2 : Node) (op : Op),
      mkdir fs wh nm = (fs2, some op) →
      op = .mkDir (wh ++ [nm]) ∧ ∃ ds, lookup fs2 (wh ++ [nm]) = some (.dir ds)) ∧
    (∀ (fs : Node) (wh : Path) (nm : String) (fs2 : Node) (op : Op),
      touch fs wh nm = (fs2, some op) →
      op = .touch (wh ++ [nm]) ∧ ∃ c, lookup fs2 (wh ++ [nm]) = some (.file c)) ∧
    (∀ (fs : Node) (wh : Path) (nm : String) (ds : List (String × Node)),
      lookup fs (wh ++ [nm]) = some (.dir ds) →
      mkdir fs wh nm = (fs, some (.mkDir (wh ++ [nm])))) ∧
    (∀ (fs : Node) (wh : Path) (nm : String) (c : String),
      lookup fs (wh ++ [nm]) = some (.file c) →
      touch fs wh nm = (fs, some (.touch (wh ++ [nm])))) := by
  refine ⟨?_, ?_, ?_, ?_⟩
  · intro fs wh nm fs2 op h
    simp only [mkdir] at h
    cases hc : createDirAll fs (wh ++ [nm]) with
    | none => simp only [hc] at h; simp at h
    | some fs1 =>
      simp only [hc] at h
      simp only [Prod.mk.injEq, Option.some.injEq] at h
      refine ⟨h.2.symm, ?_⟩
      rw [← h.1]
      exact createDirAll_lookup_dir fs fs1 (wh ++ [nm]) hc
  · intro fs wh nm fs2 op h
    simp only [touch] at h
    cases hc : createDirAll fs (wh ++ [nm]).dropLast with
    | none => simp only [hc] at h; simp at h
    | some fs1 =>
      simp only [hc] at h
      cases hl : lookup fs1 (wh ++ [nm]) with
      | some n =>
        cases n with
        | dir ds => simp only [hl] at h; simp at h
        | file c =>
          simp only [hl] at h
          simp only [Prod.mk.injEq, Option.some.injEq] at h
          refine ⟨h.2.symm, c, ?_⟩
          rw [← h.1]
          exact hl
      | none =>
        simp only [hl] at h
        cases hi : insertAt fs1 (wh ++ [nm]) (.file "") with
        | none => simp only [hi] at h; simp at h
        | some fs3 =>
          simp only [hi] at h
          simp only [Prod.mk.injEq, Option.some.injEq] at h
          refine ⟨h.2.symm, "", ?_⟩
          rw [← h.1]
          exact insertAt_lookup_same fs1 fs3 _ _ hi
  · intro fs wh nm ds h
    simp [mkdir, createDirAll_id fs (wh ++ [nm]) ds h]
  · intro fs wh nm c h
    rcases lookup_parent_dir fs wh nm _ h with ⟨ds, hds⟩
    have hdrop : (wh ++ [nm]).dropLast = wh := by simp
    simp [touch, hdrop, createDirAll_id fs wh ds hds, h]

/-- C8 witness: the amended no-op clause applied to an existing directory. -/
theorem mkdir_touch_record_semantics_witness :
    mkdir c8fs [] "d" = (c8fs, some (.mkDir ["d"])) := by
  have := mkdir_touch_record_semantics.2.2.1 c8fs [] "d" []
    (by simp [c8fs, lookup, findChild])
  simpa using this

/-- C2 counterexample: renaming `a` over the existing sibling `b`
(file-over-file) does not fail at the underlying rename — POSIX `rename(2)`
replaces the destination atomically — so the call succeeds, returns a
record, and the existing entry is silently replaced. -/
theorem rename_collision_replaces_silently :
    lookup c2fs ["b"] = some (.file "B") ∧
    (rename envClean c2fs ["a"] "b").2 = some (.rename ["a"] ["b"]) ∧
    lookup (rename envClean c2fs ["a"] "b").1 ["b"] = some (.file "A") := by
  refine ⟨by simp [c2fs, lookup, findChild], ?_, ?_⟩ <;>
    simp [rename, move_rec, renameFs, createDirAll, lookup, findChild, removeAt,
      insertAt, removeChild, setChild, envClean, c2fs, pfx]

/-- C2 amended: `rename` applies no numeric-suffix collision resolution —
any record it returns carries exactly the destination
`parent(source)/new_name` — but a collision need not surface an error: when
source and destination are both files (and no failure is injected), the
rename succeeds and silently replaces the existing destination entry with
the source's content. -/
theorem rename_no_renumbering_and_silent_replace :
    (∀ (env : Env) (fs : Node) (src : Path) (nn : String),
      (rename env fs src nn).2 = none ∨
      (rename env fs src nn).2 = some (.rename src (src.dropLast ++ [nn]))) ∧
    (∀ (env : Env) (fs : Node) (q : Path) (x nn : String) (a b : String),
      env.renameFails (q ++ [x]) (q ++ [nn]) = false →
      lookup fs (q ++ [x]) = some (.file a) →
      lookup fs (q ++ [nn]) = some (.file b) →
      x ≠ nn →
      pfx (q ++ [x]) (q ++ [nn]) = false → pfx (q ++ [nn]) (q ++ [x]) = false →
      (rename env fs (q ++ [x]) nn).2 = some (.rename (q ++ [x]) (q ++ [nn])) ∧
      lookup (rename env fs (q ++ [x]) nn).1 (q ++ [nn]) = some (.file a)) := by
  constructor
  · intro env fs src nn
    simp only [rename]
    cases hm : move_rec env fs src (src.dropLast ++ [nn]) with
    | mk fs1 ok =>
      cases ok with
      | false => exact Or.inl rfl
      | true => exact Or.inr rfl
  · intro env fs q x nn a b hrf hsrc hdst hxn hp1 hp2
    have hdrop : (q ++ [x]).dropLast = q := by simp
    rcases lookup_parent_dir fs q x _ hsrc with ⟨ds, hds⟩
    have hcda : createDirAll fs (q ++ [nn]).dropLast = some fs := by
      have : (q ++ [nn]).dropLast = q := by simp
      rw [this]
      exact createDirAll_id fs q ds hds
    rcases removeAt_succeeds fs q x _ hsrc with ⟨fsr, hfsr⟩
    have hqdir2 : ∃ ds2, lookup fsr q = some (.dir ds2) :=
      removeAt_dir_preserved fs fsr (q ++ [x]) q ds hfsr
        (by
          cases hpp : pfx (q ++ [x]) q with
          | false => rfl
          | true =>
            rcases (pfx_iff_append _ _).1 hpp with ⟨r, hr⟩
            have := congrArg List.length hr
            simp at this) hds
    rcases hqdir2 with ⟨ds2, hds2⟩
    rcases insertAt_succeeds fsr q nn (.file a) ds2 hds2 with ⟨fsi, hfsi⟩
    have hne : ¬ (q ++ [x] = q ++ [nn]) := by
      intro hcon
      exact hxn (by simpa using hcon)
    have hrn : renameFs env fs (q ++ [x]) (q ++ [nn]) = some fsi := by
      simp only [renameFs, hrf, hsrc, hdst]
      rw [if_neg (by simp), if_neg (by intro hcon; exact hne hcon),
        if_neg (by simp [hp1, hp2])]
      rw [hfsr]
      simpa using hfsi
    have hmv : move_rec env fs (q ++ [x]) (q ++ [nn]) = (fsi, true) := by
      simp only [move_rec, hcda, hrn]
    have hren : rename env fs (q ++ [x]) nn = (fsi, some (.rename (q ++ [x]) (q ++ [nn]))) := by
      have hd2 : (q ++ [x]).dropLast ++ [nn] = q ++ [nn] := by simp
      simp only [rename, hd2, hmv]
    rw [hren]
    exact ⟨rfl, insertAt_lookup_same fsr fsi _ _ hfsi⟩

/-- C2 witness: the silent-replacement clause applied to the two-file
root. -/
theorem rename_no_renumbering_witness :
    (rename envClean c2fs (([] : Path) ++ ["a"]) "b").2 =
      some (.rename (([] : Path) ++ ["a"]) (([] : Path) ++ ["b"])) ∧
    lookup (rename envClean c2fs (([] : Path) ++ ["a"]) "b").1
      (([] : Path) ++ ["b"]) = some (.file "A") :=
  rename_no_renumbering_and_silent_replace.2 envClean c2fs [] "a" "b" "A" "B"
    rfl (by simp [c2fs, lookup, findChild]) (by simp [c2fs, lookup, findChild])
    (by simp) (by simp [pfx]) (by simp [pfx])


mutual
/-- An uncancelled walk (flag never set) emits exactly the matching file
paths, in traversal order, and its final counters add the subtree's file
and directory totals to the starting counters. -/
theorem walkNode_uncancelled (q : String) :
    ∀ (n : Node) (path : Path) (t : Nat) (c : Nat × Nat),
    resultPaths (walkNode (fun _ => false) q n path t c).1 = collectMatches q n path ∧
    (walkNode (fun _ => false) q n path t c).2.2 =
      (c.1 + countFiles n, c.2 + countDirs n)
  | .file s, path, t, c => by
    simp [walkNode, resultPaths, collectMatches, countFiles, countDirs]
  | .dir cs, path, t, c => by
    have ih := walkEntries_uncancelled q cs path (t + 1) (c.1, c.2 + 1)
    simp only [walkNode, Bool.false_eq_true, if_false, resultPaths,
      List.filterMap_cons, collectMatches, countFiles, countDirs] at ih ⊢
    refine ⟨ih.1, ?_⟩
    rw [ih.2]
    have : c.2 + 1 + countDirsL cs = c.2 + (1 + countDirsL cs) := by omega
    rw [this]
/-- The entry loop of an uncancelled walk, ditto. -/
theorem walkEntries_uncancelled (q : String) :
    ∀ (cs : List (String × Node)) (path : Path) (t : Nat) (c : Nat × Nat),
    resultPaths (walkEntries (fun _ => false) q cs path t c).1 =
      collectMatchesL q cs path ∧
    (walkEntries (fun _ => false) q cs path t c).2.2 =
      (c.1 + countFilesL cs, c.2 + countDirsL cs)
  | [], path, t, c => by
    simp [walkEntries, resultPaths, collectMatchesL, countFilesL, countDirsL]
  | (a, .file s) :: rest, path, t, c => by
    have ih := walkEntries_uncancelled q rest path (t + 1) (c.1 + 1, c.2)
    simp only [walkEntries, Bool.false_eq_true, if_false, resultPaths,
      List.filterMap_append, collectMatchesL, countFilesL, countDirsL] at ih ⊢
    constructor
    · rw [← ih.1]
      cases hm : nameMatch q a <;> simp [resultPaths]
    · rw [ih.2]
      have : c.1 + 1 + countFilesL rest = c.1 + (1 + countFilesL rest) := by omega
      rw [this]
  | (a, .dir ds) :: rest, path, t, c => by
    have ih1 := walkNode_uncancelled q (.dir ds) (path ++ [a]) (t + 1) c
    have ih2 := walkEntries_uncancelled q rest path
      (walkNode (fun _ => false) q (.dir ds) (path ++ [a]) (t + 1) c).2.1
      (walkNode (fun _ => false) q (.dir ds) (path ++ [a]) (t + 1) c).2.2
    simp only [walkEntries, Bool.false_eq_true, if_false, resultPaths,
      List.filterMap_append, collectMatchesL, countFilesL, countDirsL] at ih1 ih2 ⊢
    constructor
    · rw [ih1.1, ih2.1]
    · rw [ih2.2, ih1.2]
      have h1 : c.1 + countFiles (Node.dir ds) + countFilesL rest =
          c.1 + (countFiles (Node.dir ds) + countFilesL rest) := by omega
      have h2 : c.2 + countDirs (Node.dir ds) + countDirsL rest =
          c.2 + (countDirs (Node.dir ds) + countDirsL rest) := by omega
      rw [h1, h2]
end

mutual
/-- Every message the walk emits was admitted by a poll at which the
cancellation flag read false, and none of them is a `done: true` progress
message. -/
theorem walkNode_msgs_tagged (sched : Nat → Bool) (q : String) :
    ∀ (n : Node) (path : Path) (t : Nat) (c : Nat × Nat),
    ∀ pm ∈ (walkNode sched q n path t c).1,
      sched pm.1 = false ∧ ∀ m, pm.2 = SMsg.progress m → m.done = false
  | .file s, path, t, c => by
    intro pm hpm
    cases hs : sched t <;> simp [walkNode, hs] at hpm
  | .dir cs, path, t, c => by
    intro pm hpm
    cases hs : sched t with
    | true => simp [walkNode, hs] at hpm
    | false =>
      simp only [walkNode, hs, Bool.false_eq_true, if_false, List.mem_cons] at hpm
      rcases hpm with hpm | hpm
      · subst hpm
        exact ⟨hs, by intro m hm; cases hm; rfl⟩
      · exact walkEntries_msgs_tagged sched q cs path (t + 1) (c.1, c.2 + 1) pm hpm
/-- Ditto for the entry loop. -/
theorem walkEntries_msgs_tagged (sched : Nat → Bool) (q : String) :
    ∀ (cs : List (String × Node)) (path : Path) (t : Nat) (c : Nat × Nat),
    ∀ pm ∈ (walkEntries sched q cs path t c).1,
      sched pm.1 = false ∧ ∀ m, pm.2 = SMsg.progress m → m.done = false
  | [], path, t, c => by intro pm hpm; simp [walkEntries] at hpm
  | (a, .file s) :: rest, path, t, c => by
    intro pm hpm
    cases hs : sched t with
    | true => simp [walkEntries, hs] at hpm
    | false =>
      simp only [walkEntries, hs, Bool.false_eq_true, if_false, List.append_assoc,
        List.cons_append, List.nil_append, List.mem_append, List.mem_cons] at hpm
      rcases hpm with hpm | hpm | hpm
      · have : pm = (t, SMsg.result (path ++ [a])) := by
          cases hnm : nameMatch q a with
          | true => rw [hnm] at hpm; simpa using hpm
          | false => rw [hnm] at hpm; simp at hpm
        subst this
        exact ⟨hs, by intro m hm; cases hm⟩
      · subst hpm
        exact ⟨hs, by intro m hm; cases hm; rfl⟩
      · exact walkEntries_msgs_tagged sched q rest path (t + 1) (c.1 + 1, c.2) pm hpm
  | (a, .dir ds) :: rest, path, t, c => by
    intro pm hpm
    cases hs : sched t with
    | true => simp [walkEntries, hs] at hpm
    | false =>
      simp only [walkEntries, hs, Bool.false_eq_true, if_false,
        List.mem_append] at hpm
      rcases hpm with hpm | hpm
      · exact walkNode_msgs_tagged sched q (.dir ds) (path ++ [a]) (t + 1) c pm hpm
      · exact walkEntries_msgs_tagged sched q rest path
          (walkNode sched q (.dir ds) (path ++ [a]) (t + 1) c).2.1
          (walkNode sched q (.dir ds) (path ++ [a]) (t + 1) c).2.2 pm hpm
end

/-- Once a monotone flag is set, it stays set. -/
theorem sched_stays_set (sched : Nat → Bool)
    (hm : ∀ t, sched t = true → sched (t + 1) = true)
    (t0 : Nat) (h0 : sched t0 = true) : ∀ p, t0 ≤ p → sched p = true := by
  intro p hp
  induction p, hp using Nat.le_induction with
  | base => exact h0
  | succ p hp ih => exact hm p ih

/-- C6: an uncancelled search emits a result exactly for each reachable
non-directory entry whose file name case-insensitively contains the query
(the match is applied to the entry name only, never the full path — see
`collectMatchesL`), and ends with a single `done: true` progress message
whose counts are the totals of files and directories visited. -/
theorem search_results_exact (q : String) (root : Node) (rp : Path) :
    resultPaths (runSearch (fun _ => false) q root rp) = collectMatches q root rp ∧
    (∃ ms t, runSearch (fun _ => false) q root rp =
        ms ++ [(t, .progress ⟨countFiles root, countDirs root, true⟩)] ∧
      ∀ pm ∈ ms, ∀ m, pm.2 = SMsg.progress m → m.done = false) := by
  have h1 := walkNode_uncancelled q root rp 0 (0, 0)
  have h2 := walkNode_msgs_tagged (fun _ => false) q root rp 0 (0, 0)
  constructor
  · unfold runSearch
    simp only [resultPaths, List.filterMap_append] at h1 ⊢
    rw [h1.1]
    simp
  · refine ⟨(walkNode (fun _ => false) q root rp 0 (0, 0)).1,
      (walkNode (fun _ => false) q root rp 0 (0, 0)).2.1, ?_, ?_⟩
    · simp only [runSearch]
      rw [h1.2]
      simp
    · intro pm hpm m hme
      exact (h2 pm hpm).2 m hme

/-- C7: the cancellation flag is checked at the start of each directory
traversal and before each entry; every message is admitted by a poll that
read false, so once a monotone flag is observed set (first true poll at
`t0`) no message — in particular no result — tagged at or after `t0` is
ever produced; and the run still always ends with exactly one `done: true`
progress message. -/
theorem search_cancellation (sched : Nat → Bool) (q : String) :
    (∀ (n : Node) (path : Path) (t : Nat) (c : Nat × Nat),
      ∀ pm ∈ (walkNode sched q n path t c).1, sched pm.1 = false) ∧
    ((∀ t, sched t = true → sched (t + 1) = true) →
      ∀ t0, sched t0 = true →
      ∀ (n : Node) (path : Path) (t : Nat) (c : Nat × Nat),
        ∀ pm ∈ (walkNode sched q n path t c).1, pm.1 < t0) ∧
    (∀ (n : Node) (path : Path) (t : Nat) (c : Nat × Nat), sched t = true →
      walkNode sched q n path t c = ([], t + 1, c)) ∧
    (∀ (a : String) (child : Node) (rest : List (String × Node)) (path : Path)
      (t : Nat) (c : Nat × Nat), sched t = true →
      walkEntries sched q ((a, child) :: rest) path t c = ([], t + 1, c)) ∧
    (∀ (root : Node) (rp : Path),
      ∃ ms t cf cd, runSearch sched q root rp =
          ms ++ [(t, .progress ⟨cf, cd, true⟩)] ∧
        ∀ pm ∈ ms, ∀ m, pm.2 = SMsg.progress m → m.done = false) := by
  refine ⟨?_, ?_, ?_, ?_, ?_⟩
  · intro n path t c pm hpm
    exact (walkNode_msgs_tagged sched q n path t c pm hpm).1
  · intro hm t0 h0 n path t c pm hpm
    have hf := (walkNode_msgs_tagged sched q n path t c pm hpm).1
    by_contra hge
    have : sched pm.1 = true := sched_stays_set sched hm t0 h0 pm.1 (by omega)
    rw [this] at hf
    exact Bool.true_eq_false.mp hf
  · intro n path t c hs
    cases n <;> simp [walkNode, hs]
  · intro a child rest path t c hs
    simp [walkEntries, hs]
  · intro root rp
    refine ⟨(walkNode sched q root rp 0 (0, 0)).1,
      (walkNode sched q root rp 0 (0, 0)).2.1,
      (walkNode sched q root rp 0 (0, 0)).2.2.1,
      (walkNode sched q root rp 0 (0, 0)).2.2.2, by simp [runSearch], ?_⟩
    intro pm hpm m hme
    exact (walkNode_msgs_tagged sched q root rp 0 (0, 0) pm hpm).2 m hme

/-- C7 witness: with the flag set from the start the walk emits nothing and
stops after one poll; with a flag that becomes set at poll 1 and stays set,
every emitted message was admitted before poll 1. -/
theorem search_cancellation_witness :
    walkNode (fun _ => true) "q" c8fs [] 0 (0, 0) = ([], 1, (0, 0)) ∧
    (∀ pm ∈ (walkNode (fun t => Nat.ble 1 t) "q" c8fs [] 0 (0, 0)).1, pm.1 < 1) := by
  constructor
  · exact (search_cancellation (fun _ => true) "q").2.2.1 c8fs [] 0 (0, 0) rfl
  · exact (search_cancellation (fun t => Nat.ble 1 t) "q").2.1
      (by intro t ht; cases t <;> simp_all [Nat.ble_eq]) 1 rfl c8fs [] 0 (0, 0)


theorem pfx_snoc_self_false (q : Path) (x : String) : pfx (q ++ [x]) q = false := by
  cases hp : pfx (q ++ [x]) q with
  | false => rfl
  | true =>
    rcases (pfx_iff_append _ _).1 hp with ⟨r, hr⟩
    have := congrArg List.length hr
    simp at this

/-- Two unrelated paths stay unrelated after extending one of them by a
component. -/
theorem pfx_unrelated_snoc (p d : Path) (x : String)
    (h1 : pfx p d = false) (h2 : pfx d p = false) :
    pfx p (d ++ [x]) = false ∧ pfx (d ++ [x]) p = false := by
  constructor
  · cases hp : pfx p (d ++ [x]) with
    | false => rfl
    | true =>
      rcases pfx_snoc_cases p d x hp with hc | hc
      · rw [hc] at h1; simp at h1
      · subst hc
        rw [pfx_append] at h2
        simp at h2
  · cases hp : pfx (d ++ [x]) p with
    | false => rfl
    | true =>
      have := pfx_trans (pfx_append d [x]) hp
      rw [this] at h2
      simp at h2

theorem pfx_dropLast_false (p d : Path) (h : pfx p d = false) :
    pfx p d.dropLast = false := by
  cases hp : pfx p d.dropLast with
  | false => rfl
  | true =>
    have := pfx_dropLast p d hp
    rw [this] at h
    simp at h

/-- `unique_in` always answers a single extra component under the target
directory. -/
theorem unique_in_shape (fs : Node) (d : Path) (name : String) :
    ∃ x, unique_in fs d name = d ++ [x] := by
  unfold unique_in
  by_cases hb : pathExists fs (d ++ [name]) = true
  · rw [if_pos hb]
    exact ⟨_, rfl⟩
  · rw [if_neg hb]
    exact ⟨name, rfl⟩

mutual
/-- A recursive copy writes only at or below the destination (and creates
directories along the destination's parents): the view at any path
unrelated to the destination is unchanged, whether the copy succeeded or
failed partway. -/
theorem copyNode_lookup_other (env : Env) (qq : Path) :
    ∀ (n fs : Node) (src dst : Path),
      pfx dst qq = false → pfx qq dst = false →
      lookup (copyNode env fs n src dst).1 qq = lookup fs qq
  | .file ct => by
    intro fs src dst h1 h2
    simp only [copyNode]
    by_cases hf : env.copyFaults src = true
    · simp [hf]
    · simp only [Bool.not_eq_true] at hf
      simp only [hf, Bool.false_eq_true, if_false]
      cases hc : createDirAll fs dst.dropLast with
      | none => simp [hc]
      | some fs1 =>
        have e1 : lookup fs1 qq = lookup fs qq :=
          createDirAll_lookup_other fs fs1 dst.dropLast qq hc
            (pfx_dropLast_false qq dst h2)
        simp only [hc]
        cases hcp : fsCopyFile fs1 dst ct with
        | none => simp only [hcp]; simpa using e1
        | some fs2 =>
          have e2 : lookup fs2 qq = lookup fs1 qq := by
            unfold fsCopyFile at hcp
            cases hl : lookup fs1 dst with
            | some n2 =>
              cases n2 with
              | dir ds => rw [hl] at hcp; simp at hcp
              | file c2 =>
                rw [hl] at hcp
                exact insertAt_lookup_other fs1 fs2 _ dst qq hcp h1 h2
            | none =>
              rw [hl] at hcp
              exact insertAt_lookup_other fs1 fs2 _ dst qq hcp h1 h2
          simp only [hcp]
          rw [e2, e1]
  | .dir cs => by
    intro fs src dst h1 h2
    simp only [copyNode]
    by_cases hf : env.copyFaults src = true
    · simp [hf]
    · simp only [Bool.not_eq_true] at hf
      simp only [hf, Bool.false_eq_true, if_false]
      cases hc : createDirAll fs dst with
      | none => simp [hc]
      | some fs1 =>
        have e1 : lookup fs1 qq = lookup fs qq :=
          createDirAll_lookup_other fs fs1 dst qq hc h2
        simp only [hc]
        rw [copyChildren_lookup_other env qq cs fs1 src dst h1 h2, e1]
/-- Ditto for the child loop of the copy. -/
theorem copyChildren_lookup_other (env : Env) (qq : Path) :
    ∀ (cs : List (String × Node)) (fs : Node) (src dst : Path),
      pfx dst qq = false → pfx qq dst = false →
      lookup (copyChildren env fs cs src dst).1 qq = lookup fs qq
  | [] => by intro fs src dst h1 h2; rfl
  | (a, child) :: rest => by
    intro fs src dst h1 h2
    have hsub := pfx_unrelated_snoc qq dst a h2 h1
    simp only [copyChildren]
    cases hcp : copyNode env fs child (src ++ [a]) (dst ++ [a]) with
    | mk fs1 ok =>
      have e1 : lookup fs1 qq = lookup fs qq := by
        have := copyNode_lookup_other env qq child fs (src ++ [a]) (dst ++ [a])
          hsub.2 hsub.1
        rw [hcp] at this
        exact this
      cases ok with
      | false => simp only [hcp]; simpa using e1
      | true =>
        simp only [hcp]
        rw [copyChildren_lookup_other env qq rest fs1 src dst h1 h2, e1]
end

/-- `copy_rec` never changes the view at a path unrelated to its
destination. -/
theorem copy_rec_lookup_other (env : Env) (fs : Node) (src dst qq : Path)
    (h1 : pfx dst qq = false) (h2 : pfx qq dst = false) :
    lookup (copy_rec env fs src dst).1 qq = lookup fs qq := by
  unfold copy_rec
  cases hl : lookup fs src with
  | none => simp [hl]
  | some n =>
    simp only [hl]
    exact copyNode_lookup_other env qq n fs src dst h1 h2

/-- When the whole move (rename, then copy fallback) fails, the source
subtree reads exactly as before: the removal step runs only after a fully
successful copy, so a failed move never destroys or changes the source. -/
theorem move_rec_failed_preserves (env : Env) (fs : Node) (src dst : Path)
    (h1 : pfx src dst = false) (h2 : pfx dst src = false)
    (hfail : (move_rec env fs src dst).2 = false) :
    lookup (move_rec env fs src dst).1 src = lookup fs src := by
  unfold move_rec at hfail ⊢
  cases hc : createDirAll fs dst.dropLast with
  | none => rfl
  | some fs1 =>
    have e1 : lookup fs1 src = lookup fs src :=
      createDirAll_lookup_other fs fs1 dst.dropLast src hc
        (pfx_dropLast_false src dst h1)
    simp only [hc] at hfail ⊢
    cases hr : renameFs env fs1 src dst with
    | some fs2 => simp [hr] at hfail
    | none =>
      simp only [hr] at hfail ⊢
      cases hcr : copy_rec env fs1 src dst with
      | mk fs2 ok =>
        have e2 : lookup fs2 src = lookup fs1 src := by
          have := copy_rec_lookup_other env fs1 src dst src h2 h1
          rw [hcr] at this
          exact this
        cases ok with
        | false => simp only [hcr]; rw [e2, e1]
        | true =>
          simp only [hcr] at hfail ⊢
          cases hrm : removeAt fs2 src with
          | some fs3 => simp [hrm] at hfail
          | none =>
            simp only [hrm]
            rw [e2, e1]

/-- C1: in `move_rec`, when the rename fails and the fallback copy then
fails, the failure is surfaced to the caller and the removal step never
runs (the state is exactly what the failed copy left); consequently for
`mv` (and `delete_to_trash`, which uses the same move-with-fallback),
whenever the operation reports failure — in any environment — the source
still reads exactly as before at its original path, and the error is
surfaced as the absent record. -/
theorem move_fallback_never_destroys_source :
    (∀ (env : Env) (fs fs1 : Node) (src dst : Path),
      createDirAll fs dst.dropLast = some fs1 →
      renameFs env fs1 src dst = none →
      (copy_rec env fs1 src dst).2 = false →
      (move_rec env fs src dst).2 = false ∧
      (move_rec env fs src dst).1 = (copy_rec env fs1 src dst).1) ∧
    (∀ (env : Env) (fs : Node) (src toDir : Path),
      pfx src (unique_in fs toDir (lastName src)) = false →
      pfx (unique_in fs toDir (lastName src)) src = false →
      (mv env fs src toDir).2 = none →
      lookup (mv env fs src toDir).1 src = lookup fs src) ∧
    (∀ (env : Env) (trash : Path) (fs : Node) (p : Path),
      pfx p trash = false → pfx trash p = false →
      (delete_to_trash env trash fs p).2 = none →
      lookup (delete_to_trash env trash fs p).1 p = lookup fs p) := by
  refine ⟨?_, ?_, ?_⟩
  · intro env fs fs1 src dst hcda hrn hcopy
    unfold move_rec
    simp only [hcda, hrn]
    cases hcr : copy_rec env fs1 src dst with
    | mk fs2 ok =>
      rw [hcr] at hcopy
      simp at hcopy
      subst hcopy
      simp
  · intro env fs src toDir h1 h2 hfail
    unfold mv at hfail ⊢
    cases hm : move_rec env fs src (unique_in fs toDir (lastName src)) with
    | mk fs1 ok =>
      cases ok with
      | true => simp [hm] at hfail
      | false =>
        have := move_rec_failed_preserves env fs src
          (unique_in fs toDir (lastName src)) h1 h2 (by rw [hm])
        rw [hm] at this
        simp only [hm]
        simpa using this
  · intro env trash fs p h1 h2 hfail
    unfold delete_to_trash at hfail ⊢
    cases hc : createDirAll fs trash with
    | none => rfl
    | some fs1 =>
      have e1 : lookup fs1 p = lookup fs p :=
        createDirAll_lookup_other fs fs1 trash p hc h1
      simp only [hc] at hfail ⊢
      rcases unique_in_shape fs1 trash (lastName p) with ⟨x, hx⟩
      have hrel := pfx_unrelated_snoc p trash x h1 h2
      cases hm : move_rec env fs1 p (unique_in fs1 trash (lastName p)) with
      | mk fs2 ok =>
        cases ok with
        | true => simp [hm] at hfail
        | false =>
          have := move_rec_failed_preserves env fs1 p
            (unique_in fs1 trash (lastName p))
            (by rw [hx]; exact hrel.1) (by rw [hx]; exact hrel.2) (by rw [hm])
          rw [hm] at this
          simp only [hm]
          rw [this, e1]

/-- C1 witness: in an environment where the rename and the copy both fail,
a move (and a delete to trash) fails without touching the source file. -/
theorem move_fallback_never_destroys_source_witness :
    (move_rec envFail c1fs ["a"] ["d", "a"]).2 = false ∧
    lookup (mv envFail c1fs ["a"] ["d"]).1 ["a"] = lookup c1fs ["a"] ∧
    lookup (delete_to_trash envFail ["T"] c1fs ["a"]).1 ["a"] = lookup c1fs ["a"] := by
  refine ⟨?_, ?_, ?_⟩
  · exact (move_fallback_never_destroys_source.1 envFail c1fs c1fs ["a"] ["d", "a"]
      (by simp [createDirAll, c1fs, findChild, setChild])
      (by simp [renameFs, envFail])
      (by simp [copy_rec, lookup, c1fs, findChild, copyNode, envFail])).1
  · exact move_fallback_never_destroys_source.2.1 envFail c1fs ["a"] ["d"]
      (by simp [unique_in, pathExists, lookup, c1fs, findChild, lastName, pfx])
      (by simp [unique_in, pathExists, lookup, c1fs, findChild, lastName, pfx])
      (by simp [mv, move_rec, unique_in, pathExists, lookup, c1fs, findChild,
        lastName, createDirAll, renameFs, envFail, copy_rec, copyNode, setChild])
  · exact move_fallback_never_destroys_source.2.2 envFail ["T"] c1fs ["a"]
      (by simp [pfx]) (by simp [pfx])
      (by simp [delete_to_trash, move_rec, unique_in, pathExists, lookup, c1fs,
        findChild, lastName, createDirAll, renameFs, envFail, copy_rec, copyNode,
        setChild, mkDirs])


theorem snoc_inj (d : Path) (x y : String) (h : d ++ [x] = d ++ [y]) : x = y := by
  have := List.append_cancel_left h
  simpa using this

theorem pfx_snoc_snoc_ne (d : Path) (a b : String) (h : a ≠ b) :
    pfx (d ++ [a]) (d ++ [b]) = false := by
  cases hp : pfx (d ++ [a]) (d ++ [b]) with
  | false => rfl
  | true =>
    rcases (pfx_iff_append _ _).1 hp with ⟨r, hr⟩
    rw [List.append_assoc] at hr
    have := List.append_cancel_left hr
    cases r with
    | nil => simp at this; exact absurd this.symm h
    | cons y ys =>
      have hl := congrArg List.length this
      simp at hl

/-- On an occupied base name, `unique_in` returns the candidate with the
least unused index `i ≥ 1`; every smaller index is in use. -/
theorem unique_in_occupied_spec (fs : Node) (d : Path) (name : String)
    (h : pathExists fs (d ++ [name]) = true) :
    ∃ i, 1 ≤ i ∧ unique_in fs d name = d ++ [candName name i] ∧
      pathExists fs (d ++ [candName name i]) = false ∧
      ∀ j, 1 ≤ j → j < i → pathExists fs (d ++ [candName name j]) = true := by
  rcases findFree_window fs d name with ⟨k, hk, hfree⟩
  have hspec := findFree_spec fs d name ((childNames fs d).length + 1) 1 ⟨k, hk, hfree⟩
  refine ⟨findFree fs d name ((childNames fs d).length + 1) 1, hspec.2.1, ?_,
    hspec.1, fun j h1 h2 => hspec.2.2 j h1 h2⟩
  unfold unique_in
  rw [if_pos h]

/-- C5: the naming resolver returns `d/name` when free, otherwise the first
`d/"name (i)"`, `i = 1, 2, …`, that does not exist; the suffix is appended
to the entire name string (extension included); and re-resolving the same
collision after creating the resolved entry yields a strictly larger
index. -/
theorem unique_in_first_free_and_increasing (fs : Node) (d : Path) (name : String) :
    (pathExists fs (d ++ [name]) = false → unique_in fs d name = d ++ [name]) ∧
    (pathExists fs (d ++ [name]) = true →
      ∃ i, 1 ≤ i ∧
        unique_in fs d name = d ++ [name ++ " (" ++ natToStr i ++ ")"] ∧
        pathExists fs (d ++ [candName name i]) = false ∧
        (∀ j, 1 ≤ j → j < i → pathExists fs (d ++ [candName name j]) = true)) ∧
    (∀ (fs2 : Node) (i : Nat), pathExists fs (d ++ [name]) = true →
      unique_in fs d name = d ++ [candName name i] →
      insertAt fs (unique_in fs d name) (.file "") = some fs2 →
      ∃ i2, i < i2 ∧ unique_in fs2 d name = d ++ [candName name i2]) := by
  refine ⟨?_, ?_, ?_⟩
  · intro h
    unfold unique_in
    rw [if_neg (by simp [h])]
  · intro h
    rcases unique_in_occupied_spec fs d name h with ⟨i, h1, h2, h3, h4⟩
    exact ⟨i, h1, h2, h3, h4⟩
  · intro fs2 i hocc heq hins
    rcases unique_in_occupied_spec fs d name hocc with ⟨i1, hi1, he1, hf1, hlt1⟩
    have hii : i = i1 := by
      rw [heq] at he1
      exact candName_inj name (snoc_inj d _ _ he1)
    subst hii
    rw [heq] at hins
    have hbase2 : pathExists fs2 (d ++ [name]) = true := by
      have hne : candName name i ≠ name := candName_ne_name name i
      have hpre := insertAt_lookup_other fs fs2 _ (d ++ [candName name i])
        (d ++ [name]) hins
        (pfx_snoc_snoc_ne d (candName name i) name hne)
        (pfx_snoc_snoc_ne d name (candName name i) (fun hh => hne hh.symm))
      unfold pathExists at hocc ⊢
      rw [hpre]
      exact hocc
    rcases unique_in_occupied_spec fs2 d name hbase2 with ⟨i2, hi2, he2, hf2, hlt2⟩
    refine ⟨i2, ?_, he2⟩
    by_contra hle
    have hle2 : i2 ≤ i := by omega
    have hocc2 : pathExists fs2 (d ++ [candName name i2]) = true := by
      by_cases hii2 : i2 = i
      · subst hii2
        unfold pathExists
        rw [insertAt_lookup_same fs fs2 _ _ hins]
        rfl
      · have hlt : i2 < i := by omega
        have hones := hlt1 i2 hi2 hlt
        have hne : candName name i ≠ candName name i2 := by
          intro hh
          exact hii2 (candName_inj name hh).symm
        have hpre := insertAt_lookup_other fs fs2 _ (d ++ [candName name i])
          (d ++ [candName name i2]) hins
          (pfx_snoc_snoc_ne d (candName name i) (candName name i2) hne)
          (pfx_snoc_snoc_ne d (candName name i2) (candName name i)
            (fun hh => hne hh.symm))
        unfold pathExists at hones ⊢
        rw [hpre]
        exact hones
    rw [hocc2] at hf2
    simp at hf2

/-- C5 witness: `"file.txt"` collides into `"file.txt (1)"` (suffix after
the extension), and after creating it the next resolution yields a larger
index. -/
theorem unique_in_first_free_witness :
    ∃ i, 1 ≤ i ∧
      unique_in (Node.dir [("file.txt", .file "x")]) [] "file.txt" =
        [] ++ ["file.txt" ++ " (" ++ natToStr i ++ ")"] ∧
      pathExists (Node.dir [("file.txt", .file "x")])
        ([] ++ [candName "file.txt" i]) = false ∧
      (∀ j, 1 ≤ j → j < i →
        pathExists (Node.dir [("file.txt", .file "x")])
          ([] ++ [candName "file.txt" j]) = true) :=
  (unique_in_first_free_and_increasing
    (Node.dir [("file.txt", .file "x")]) [] "file.txt").2.1
    (by simp [pathExists, lookup, findChild])


/-- C4: a successful soft delete followed immediately by undo restores the
filesystem state at the deleted path exactly — same path, same full subtree
(content included).  Hypotheses: no rename failure is injected (same-device
trash), the path and the trash directory are not nested one inside the
other, the entry exists, and the trash directory can be created. -/
theorem delete_then_undo_restores (env : Env) (fs fs1 : Node) (trash p : Path)
    (n0 : Node)
    (hrf : ∀ a b, env.renameFails a b = false)
    (h1 : pfx p trash = false) (h2 : pfx trash p = false)
    (h0 : lookup fs p = some n0) (hne : p ≠ [])
    (hcda : createDirAll fs trash = some fs1) :
    ∃ dst fsD, delete_to_trash env trash fs p = (fsD, some (.delete dst p)) ∧
      (undo env fsD (.delete dst p)).2 = true ∧
      lookup (undo env fsD (.delete dst p)).1 p = lookup fs p := by
  rcases (List.eq_nil_or_concat p).resolve_left hne with ⟨q, y, hpq⟩
  rw [List.concat_eq_append] at hpq
  have hp1 : lookup fs1 p = some n0 := by
    rw [createDirAll_lookup_other fs fs1 trash p hcda h1, h0]
  rcases createDirAll_lookup_dir fs fs1 trash hcda with ⟨tds, htds⟩
  rcases unique_in_shape fs1 trash (lastName p) with ⟨x, hx⟩
  have hfree : lookup fs1 (trash ++ [x]) = none := by
    have := unique_in_not_exists fs1 trash (lastName p)
    unfold pathExists at this
    rw [hx] at this
    cases hl : lookup fs1 (trash ++ [x]) with
    | none => rfl
    | some n => rw [hl] at this; simp at this
  have hrel := pfx_unrelated_snoc p trash x h1 h2
  have hrelp : pfx p (trash ++ [x]) = false := hrel.1
  have hreld : pfx (trash ++ [x]) p = false := hrel.2
  have hpd : ¬ p = trash ++ [x] := by
    intro hcon
    rw [hcon, pfx_refl] at hrelp
    simp at hrelp
  have hid1 : createDirAll fs1 (trash ++ [x]).dropLast = some fs1 := by
    rw [List.dropLast_concat]
    exact createDirAll_id fs1 trash tds htds
  rcases removeAt_succeeds fs1 q y n0 (by rw [← hpq]; exact hp1) with ⟨fs2a, hrm⟩
  rw [← hpq] at hrm
  rcases removeAt_dir_preserved fs1 fs2a p trash tds hrm h1 htds with ⟨tds2, htds2⟩
  rcases insertAt_succeeds fs2a trash x n0 tds2 htds2 with ⟨fsD, hins⟩
  have hrn : renameFs env fs1 p (trash ++ [x]) = some fsD := by
    unfold renameFs
    rw [hrf]
    simp only [Bool.false_eq_true, if_false, hp1]
    rw [if_neg hpd, if_neg (by simp [hrelp, hreld]), hfree, hrm]
    simpa using hins
  have hmv : move_rec env fs1 p (trash ++ [x]) = (fsD, true) := by
    unfold move_rec
    simp only [hid1, hrn]
  have hdel : delete_to_trash env trash fs p =
      (fsD, some (.delete (trash ++ [x]) p)) := by
    unfold delete_to_trash
    rw [hcda]
    simp only [hx, hmv]
  rcases lookup_parent_dir fs q y n0 (by rw [← hpq]; exact h0) with ⟨qds, hqds⟩
  rcases createDirAll_dir_preserved fs fs1 trash q qds hcda hqds with ⟨qds1, hqds1⟩
  have hpq_pfx : pfx p q = false := by rw [hpq]; exact pfx_snoc_self_false q y
  have hdq_pfx : pfx (trash ++ [x]) q = false := by
    cases hq : pfx (trash ++ [x]) q with
    | false => rfl
    | true =>
      have := pfx_extend (trash ++ [x]) q y hq
      rw [← hpq] at this
      rw [this] at hreld
      simp at hreld
  rcases removeAt_dir_preserved fs1 fs2a p q qds1 hrm hpq_pfx hqds1 with ⟨qds2, hqds2⟩
  rcases insertAt_dir_preserved fs2a fsD n0 (trash ++ [x]) q qds2 hins hdq_pfx
    hqds2 with ⟨qds3, hqds3⟩
  have hpdl : p.dropLast = q := by rw [hpq]; simp
  have hid2 : createDirAll fsD p.dropLast = some fsD := by
    rw [hpdl]
    exact createDirAll_id fsD q qds3 hqds3
  have hlkD : lookup fsD (trash ++ [x]) = some n0 :=
    insertAt_lookup_same fs2a fsD n0 (trash ++ [x]) hins
  have hlkDp : lookup fsD p = none := by
    rw [insertAt_lookup_other fs2a fsD n0 (trash ++ [x]) p hins hreld hrelp]
    exact removeAt_lookup_same fs1 fs2a p hrm
  rcases removeAt_succeeds fsD trash x n0 hlkD with ⟨fs3, hrm2⟩
  rcases removeAt_dir_preserved fsD fs3 (trash ++ [x]) q qds3 hrm2 hdq_pfx
    hqds3 with ⟨qds4, hqds4⟩
  rcases insertAt_succeeds fs3 q y n0 qds4 hqds4 with ⟨fs4, hins2⟩
  rw [← hpq] at hins2
  have hrn2 : renameFs env fsD (trash ++ [x]) p = some fs4 := by
    unfold renameFs
    rw [hrf]
    simp only [Bool.false_eq_true, if_false, hlkD]
    rw [if_neg (fun hcon => hpd hcon.symm),
      if_neg (by simp [hrelp, hreld]), hlkDp, hrm2]
    simpa using hins2
  have hmv2 : move_rec env fsD (trash ++ [x]) p = (fs4, true) := by
    unfold move_rec
    simp only [hid2, hrn2]
  refine ⟨trash ++ [x], fsD, hdel, ?_, ?_⟩
  · show (move_rec env fsD (trash ++ [x]) p).2 = true
    rw [hmv2]
  · show lookup (move_rec env fsD (trash ++ [x]) p).1 p = lookup fs p
    rw [hmv2]
    simp only []
    rw [insertAt_lookup_same fs3 fs4 n0 p hins2, h0]

/-- C4 witness: deleting the file `f` to the trash `T` and undoing restores
it. -/
theorem delete_then_undo_restores_witness :
    ∃ dst fsD,
      delete_to_trash envClean ["T"] (Node.dir [("f", .file "data")]) ["f"] =
        (fsD, some (.delete dst ["f"])) ∧
      (undo envClean fsD (.delete dst ["f"])).2 = true ∧
      lookup (undo envClean fsD (.delete dst ["f"])).1 ["f"] =
        lookup (Node.dir [("f", .file "data")]) ["f"] :=
  delete_then_undo_restores envClean (Node.dir [("f", .file "data")])
    (Node.dir [("f", .file "data"), ("T", .dir [])]) ["T"] ["f"] (.file "data")
    (fun a b => rfl) (by simp [pfx]) (by simp [pfx])
    (by simp [lookup, findChild]) (by simp)
    (by simp [createDirAll, findChild, setChild, mkDirs])

end Rex
